import Mathlib

/-!
Verification of the cpp-streams pipeline engine

This file gives a shallow embedding of the stream pipeline engine of
`include/streams.hpp` (namespace `stream`) and proves properties of it.

The C++ engine is a chain of stage objects, each owning its upstream stage
and exposing the two pull-protocol primitives `hasRemaining` and `next`.
We embed a pipeline as an inductive value carrying the mutable state of
every stage in the chain:

* `SourceStream` holds an iterator pair; we model the range of elements
  still to be produced as the list `remaining` (the `m_Current`/`m_End`
  pair of the C++ class).
* `FilterStream` holds the predicate `m_Condition` and the lookahead slot
  `m_Next : Optional<T>`.
* `LimitStream` holds the template parameter `MaxSize` and the counter
  `m_Count`.
* `SkipStream` holds the template parameter `N` and the counter `m_Count`.
* `DistinctStream` holds the equality test used by its `std::unordered_set`
  (modelled as the list `m_Set` of stored values), and the lookahead slot
  `m_Next`.
* `MapStream` holds `m_MapFunction`.  The C++ class allows the mapped type
  `R` to differ from `T`; the embedding fixes `R = T` (all claims proved
  here only ever use maps at a single element type).

Stateful C++ member functions become functions `Pipeline T → α × Pipeline T`
returning the result together with the updated chain state.  Calling
`next` without a preceding `hasRemaining` returning true is undefined
behaviour in the C++ engine (`std::optional::value` on an empty optional,
dereferencing an end iterator); the embedding returns `default` in those
unreachable situations.
-/

set_option linter.unusedVariables false

namespace CppStreams

inductive Pipeline (T : Type) : Type where
  | source : List T → Pipeline T
  | filter : (T → Bool) → Option T → Pipeline T → Pipeline T
  | limit : Nat → Nat → Pipeline T → Pipeline T
  | skip : Nat → Nat → Pipeline T → Pipeline T
  | distinct : (T → T → Bool) → List T → Option T → Pipeline T → Pipeline T
  | map : (T → T) → Pipeline T → Pipeline T

variable {T : Type} [Inhabited T]

/-- Number of elements still held by the underlying source of the chain.
Used as the termination measure for the pull loops. -/
def elems : Pipeline T → Nat
  | .source l => l.length
  | .filter _ _ prev => elems prev
  | .limit _ _ prev => elems prev
  | .skip _ _ prev => elems prev
  | .distinct _ _ _ prev => elems prev
  | .map _ prev => elems prev

/-- Length of the stage chain (number of stages above the source). -/
def depth : Pipeline T → Nat
  | .source _ => 0
  | .filter _ _ prev => depth prev + 1
  | .limit _ _ prev => depth prev + 1
  | .skip _ _ prev => depth prev + 1
  | .distinct _ _ _ prev => depth prev + 1
  | .map _ prev => depth prev + 1

/-- The `next` primitive of each stage, returning the produced element and
the updated chain.

* `SourceStream::next`: copies `*m_Current`, advances the iterator.
* `FilterStream::next`: returns `m_Next.value()` and leaves the state
  untouched (the C++ method does not clear the slot).
* `LimitStream::next`: `++m_Count; return m_Previous.next();`.
* `SkipStream::next`: `return m_Previous.next();`.
* `DistinctStream::next`: returns `m_Next.value()`, state untouched.
* `MapStream::next`: `return m_MapFunction(m_Previous.next());`. -/
def next : Pipeline T → T × Pipeline T
  | .source l => (l.headD default, .source l.tail)
  | .filter cond look prev => (look.getD default, .filter cond look prev)
  | .limit maxSize cnt prev =>
      let r := next prev
      (r.1, .limit maxSize (cnt + 1) r.2)
  | .skip n cnt prev =>
      let r := next prev
      (r.1, .skip n cnt r.2)
  | .distinct beq seen look prev => (look.getD default, .distinct beq seen look prev)
  | .map f prev =>
      let r := next prev
      (f r.1, .map f r.2)

theorem elems_next_le : ∀ p : Pipeline T, elems (next p).2 ≤ elems p
  | .source l => by cases l <;> simp [next, elems]
  | .filter cond look prev => by simp [next, elems]
  | .limit maxSize cnt prev => by
      simpa [next, elems] using elems_next_le prev
  | .skip n cnt prev => by
      simpa [next, elems] using elems_next_le prev
  | .distinct beq seen look prev => by simp [next, elems]
  | .map f prev => by
      simpa [next, elems] using elems_next_le prev

theorem depth_next : ∀ p : Pipeline T, depth (next p).2 = depth p
  | .source l => by simp [next, depth]
  | .filter cond look prev => by simp [next, depth]
  | .limit maxSize cnt prev => by
      simpa [next, depth] using depth_next prev
  | .skip n cnt prev => by
      simpa [next, depth] using depth_next prev
  | .distinct beq seen look prev => by simp [next, depth]
  | .map f prev => by
      simpa [next, depth] using depth_next prev

/-- Introduction helper for the lexicographic termination measure of the
mutual pull-protocol definitions. -/
theorem lexHelp {a₁ a₂ b₁ b₂ c₁ c₂ : Nat}
    (h : a₁ < a₂ ∨ (a₁ = a₂ ∧ (b₁ < b₂ ∨ (b₁ = b₂ ∧ c₁ < c₂)))) :
    Prod.Lex (fun x y => x < y) (Prod.Lex (fun x y => x < y) fun x y => x < y)
      (a₁, b₁, c₁) (a₂, b₂, c₂) := by
  rcases h with h | ⟨rfl, h | ⟨rfl, h⟩⟩
  · exact Prod.Lex.left _ _ h
  · exact Prod.Lex.right _ (Prod.Lex.left _ _ h)
  · exact Prod.Lex.right _ (Prod.Lex.right _ h)

/-- Invariant bundled with `hasRem`: the state only shrinks, the chain
shape is preserved, and a true answer guarantees that producing the
element strictly consumes source material. -/
def Inv (p : Pipeline T) (r : Bool × Pipeline T) : Prop :=
  elems r.2 ≤ elems p ∧ depth r.2 = depth p ∧
    (r.1 = true → elems (next r.2).2 < elems p)

/-- Invariant bundled with `seekFilter`. -/
def SeekInv (prev : Pipeline T) (r : Bool × Option T × Pipeline T) : Prop :=
  elems r.2.2 ≤ elems prev ∧ depth r.2.2 = depth prev ∧
    (r.1 = true → r.2.1.isSome = true ∧ elems r.2.2 < elems prev)

/-- Invariant bundled with `seekDistinct`. -/
def DistInv (prev : Pipeline T) (r : Bool × List T × Option T × Pipeline T) : Prop :=
  elems r.2.2.2 ≤ elems prev ∧ depth r.2.2.2 = depth prev ∧
    (r.1 = true → r.2.2.1.isSome = true ∧ elems r.2.2.2 < elems prev)

/-- Invariant bundled with `skipLoop`. -/
def SkipInv (prev : Pipeline T) (r : Nat × Pipeline T) : Prop :=
  elems r.2 ≤ elems prev ∧ depth r.2 = depth prev

mutual

/-- The `hasRemaining` primitive of each stage, with its invariant.

* `SourceStream::hasRemaining`: `return m_Current != m_End;`.
* `FilterStream::hasRemaining`: resets `m_Next`, then seeks the first
  upstream element satisfying the condition (`seekFilter`).
* `LimitStream::hasRemaining`:
  `return m_Previous.hasRemaining() && m_Count < MaxSize;`
  (left-to-right evaluation: the upstream query runs first).
* `SkipStream::hasRemaining`: the discard loop (`skipLoop`), then a final
  upstream `hasRemaining` call.
* `DistinctStream::hasRemaining`: seeks the first upstream element that
  enters `m_Set` (`seekDistinct`); on failure `m_Next` keeps its old value.
* `MapStream::hasRemaining`: `return m_Previous.hasRemaining();`. -/
def hasRem : (p : Pipeline T) → { r : Bool × Pipeline T // Inv p r }
  | .source l =>
      ⟨(!l.isEmpty, .source l), by
        refine ⟨le_rfl, rfl, fun h => ?_⟩
        cases l with
        | nil => simp at h
        | cons a l => simp [next, elems]⟩
  | .filter cond look prev =>
      let s := seekFilter cond prev
      ⟨(s.val.1, .filter cond s.val.2.1 s.val.2.2), by
        obtain ⟨h1, h2, h3⟩ := s.property
        refine ⟨by simpa [elems] using h1, by simpa [depth] using h2, fun hb => ?_⟩
        simpa [next, elems] using (h3 hb).2⟩
  | .limit maxSize cnt prev =>
      let r := hasRem prev
      ⟨(r.val.1 && decide (cnt < maxSize), .limit maxSize cnt r.val.2), by
        obtain ⟨h1, h2, h3⟩ := r.property
        refine ⟨by simpa [elems] using h1, by simpa [depth] using h2, fun hb => ?_⟩
        have hb1 : r.val.1 = true := by
          rcases Bool.and_eq_true_iff.mp hb with ⟨hx, _⟩
          exact hx
        simpa [next, elems] using h3 hb1⟩
  | .skip n cnt prev =>
      let l1 := skipLoop n cnt prev
      let r := hasRem l1.val.2
      ⟨(r.val.1, .skip n l1.val.1 r.val.2), by
        obtain ⟨s1, s2⟩ := l1.property
        obtain ⟨h1, h2, h3⟩ := r.property
        refine ⟨by simp [elems]; exact h1.trans s1,
                by simp [depth]; exact h2.trans s2, fun hb => ?_⟩
        have := h3 hb
        simp [next, elems]
        exact lt_of_lt_of_le this s1⟩
  | .distinct beq seen look prev =>
      let s := seekDistinct beq seen prev
      ⟨(s.val.1, .distinct beq s.val.2.1
          (if s.val.1 then s.val.2.2.1 else look) s.val.2.2.2), by
        obtain ⟨h1, h2, h3⟩ := s.property
        refine ⟨by simpa [elems] using h1, by simpa [depth] using h2, fun hb => ?_⟩
        simpa [next, elems] using (h3 hb).2⟩
  | .map f prev =>
      let r := hasRem prev
      ⟨(r.val.1, .map f r.val.2), by
        obtain ⟨h1, h2, h3⟩ := r.property
        refine ⟨by simpa [elems] using h1, by simpa [depth] using h2, fun hb => ?_⟩
        simpa [next, elems] using h3 hb⟩
termination_by p => (elems p, depth p, 0)
decreasing_by
  · exact lexHelp (Or.inr ⟨by simp [elems], Or.inl (by simp [depth])⟩)
  · exact lexHelp (Or.inr ⟨by simp [elems], Or.inl (by simp [depth])⟩)
  · exact lexHelp (Or.inr ⟨by simp [elems], Or.inl (by simp [depth])⟩)
  · obtain ⟨hle, hdep⟩ := l1.property
    rcases Nat.lt_or_ge (elems l1.val.2) (elems prev) with hl | hg
    · exact lexHelp (Or.inl (by simpa [elems] using hl))
    · have he : elems l1.val.2 = elems prev := le_antisymm hle (by exact hg)
      exact lexHelp (Or.inr ⟨by simpa [elems] using he,
        Or.inl (by simp [depth, hdep])⟩)
  · exact lexHelp (Or.inr ⟨by simp [elems], Or.inl (by simp [depth])⟩)
  · exact lexHelp (Or.inr ⟨by simp [elems], Or.inl (by simp [depth])⟩)

/-- The seek loop inside `FilterStream::hasRemaining`: repeatedly pull
from upstream until an element satisfies the condition (that element is
the new `m_Next`) or upstream exhausts (then `m_Next` holds the last
pulled element if any; the slot was reset on entry). -/
def seekFilter : (cond : T → Bool) → (prev : Pipeline T) →
    { r : Bool × Option T × Pipeline T // SeekInv prev r }
  | cond, prev =>
    let h := hasRem prev
    if hb : h.val.1 = true then
      let n := next h.val.2
      if cond n.1 then
        ⟨(true, some n.1, n.2), by
          obtain ⟨h1, h2, h3⟩ := h.property
          have hlt := h3 hb
          exact ⟨le_of_lt hlt, (depth_next h.val.2).trans h2, fun _ => ⟨rfl, hlt⟩⟩⟩
      else
        let s := seekFilter cond n.2
        ⟨(s.val.1, some (s.val.2.1.getD n.1), s.val.2.2), by
          obtain ⟨hh1, hh2, hh3⟩ := h.property
          have hlt := hh3 hb
          obtain ⟨p1, p2, p3⟩ := s.property
          refine ⟨p1.trans (le_of_lt hlt), p2.trans ((depth_next h.val.2).trans hh2),
                  fun ht => ⟨rfl, lt_trans (p3 ht).2 hlt⟩⟩⟩
    else
      ⟨(false, none, h.val.2), by
        obtain ⟨h1, h2, _⟩ := h.property
        exact ⟨h1, h2, by simp⟩⟩
termination_by cond prev => (elems prev, depth prev, 1)
decreasing_by
  · exact lexHelp (Or.inr ⟨rfl, Or.inr ⟨rfl, by omega⟩⟩)
  · exact lexHelp (Or.inl (h.property.2.2 hb))

/-- The seek loop inside `DistinctStream::hasRemaining`: pull from
upstream, skip elements already in `m_Set`, and stop at the first
successful insertion. -/
def seekDistinct : (beq : T → T → Bool) → (seen : List T) → (prev : Pipeline T) →
    { r : Bool × List T × Option T × Pipeline T // DistInv prev r }
  | beq, seen, prev =>
    let h := hasRem prev
    if hb : h.val.1 = true then
      let n := next h.val.2
      if seen.any (beq n.1) then
        let s := seekDistinct beq seen n.2
        ⟨s.val, by
          obtain ⟨hh1, hh2, hh3⟩ := h.property
          have hlt := hh3 hb
          obtain ⟨p1, p2, p3⟩ := s.property
          exact ⟨p1.trans (le_of_lt hlt), p2.trans ((depth_next h.val.2).trans hh2),
                 fun ht => ⟨(p3 ht).1, lt_trans (p3 ht).2 hlt⟩⟩⟩
      else
        ⟨(true, n.1 :: seen, some n.1, n.2), by
          obtain ⟨h1, h2, h3⟩ := h.property
          have hlt := h3 hb
          exact ⟨le_of_lt hlt, (depth_next h.val.2).trans h2, fun _ => ⟨rfl, hlt⟩⟩⟩
    else
      ⟨(false, seen, none, h.val.2), by
        obtain ⟨h1, h2, _⟩ := h.property
        exact ⟨h1, h2, by simp⟩⟩
termination_by beq seen prev => (elems prev, depth prev, 1)
decreasing_by
  · exact lexHelp (Or.inr ⟨rfl, Or.inr ⟨rfl, by omega⟩⟩)
  · exact lexHelp (Or.inl (h.property.2.2 hb))

/-- The discard loop inside `SkipStream::hasRemaining`:
`while (m_Count < N && m_Previous.hasRemaining()) { m_Previous.next(); ++m_Count; }`. -/
def skipLoop : (n cnt : Nat) → (prev : Pipeline T) →
    { r : Nat × Pipeline T // SkipInv prev r }
  | n, cnt, prev =>
    if cnt < n then
      let h := hasRem prev
      if hb : h.val.1 = true then
        let x := next h.val.2
        let rest := skipLoop n (cnt + 1) x.2
        ⟨rest.val, by
          obtain ⟨h1, h2, h3⟩ := h.property
          have hlt := h3 hb
          obtain ⟨p1, p2⟩ := rest.property
          exact ⟨p1.trans (le_of_lt hlt), p2.trans ((depth_next h.val.2).trans h2)⟩⟩
      else
        ⟨(cnt, h.val.2), by
          obtain ⟨h1, h2, _⟩ := h.property
          exact ⟨h1, h2⟩⟩
    else ⟨(cnt, prev), ⟨le_rfl, rfl⟩⟩
termination_by n cnt prev => (elems prev, depth prev, 1)
decreasing_by
  · exact lexHelp (Or.inr ⟨rfl, Or.inr ⟨rfl, by omega⟩⟩)
  · exact lexHelp (Or.inl (h.property.2.2 hb))

end

/-- `Stream::hasRemaining`, as a plain state-passing function. -/
def hasRemaining (p : Pipeline T) : Bool × Pipeline T := (hasRem p).val

/-- Value part of the seek loop of `FilterStream::hasRemaining`. -/
def seekF (cond : T → Bool) (prev : Pipeline T) : Bool × Option T × Pipeline T :=
  (seekFilter cond prev).val

/-- Value part of the seek loop of `DistinctStream::hasRemaining`. -/
def seekD (beq : T → T → Bool) (seen : List T) (prev : Pipeline T) :
    Bool × List T × Option T × Pipeline T :=
  (seekDistinct beq seen prev).val

/-- Value part of the discard loop of `SkipStream::hasRemaining`. -/
def skipL (n cnt : Nat) (prev : Pipeline T) : Nat × Pipeline T :=
  (skipLoop n cnt prev).val

theorem hasRemaining_elems_le (p : Pipeline T) :
    elems (hasRemaining p).2 ≤ elems p := (hasRem p).property.1

theorem hasRemaining_depth (p : Pipeline T) :
    depth (hasRemaining p).2 = depth p := (hasRem p).property.2.1

theorem hasRemaining_true_lt (p : Pipeline T) (h : (hasRemaining p).1 = true) :
    elems (next (hasRemaining p).2).2 < elems p := (hasRem p).property.2.2 h

theorem seekF_elems_le (cond : T → Bool) (prev : Pipeline T) :
    elems (seekF cond prev).2.2 ≤ elems prev := (seekFilter cond prev).property.1

theorem seekF_depth (cond : T → Bool) (prev : Pipeline T) :
    depth (seekF cond prev).2.2 = depth prev := (seekFilter cond prev).property.2.1

theorem seekF_true (cond : T → Bool) (prev : Pipeline T) (h : (seekF cond prev).1 = true) :
    (seekF cond prev).2.1.isSome = true ∧ elems (seekF cond prev).2.2 < elems prev :=
  (seekFilter cond prev).property.2.2 h

theorem seekD_elems_le (beq : T → T → Bool) (seen : List T) (prev : Pipeline T) :
    elems (seekD beq seen prev).2.2.2 ≤ elems prev := (seekDistinct beq seen prev).property.1

theorem seekD_depth (beq : T → T → Bool) (seen : List T) (prev : Pipeline T) :
    depth (seekD beq seen prev).2.2.2 = depth prev := (seekDistinct beq seen prev).property.2.1

theorem seekD_true (beq : T → T → Bool) (seen : List T) (prev : Pipeline T)
    (h : (seekD beq seen prev).1 = true) :
    (seekD beq seen prev).2.2.1.isSome = true ∧ elems (seekD beq seen prev).2.2.2 < elems prev :=
  (seekDistinct beq seen prev).property.2.2 h

theorem skipL_elems_le (n cnt : Nat) (prev : Pipeline T) :
    elems (skipL n cnt prev).2 ≤ elems prev := (skipLoop n cnt prev).property.1

theorem skipL_depth (n cnt : Nat) (prev : Pipeline T) :
    depth (skipL n cnt prev).2 = depth prev := (skipLoop n cnt prev).property.2

/-! ### Unfolding equations for the pull protocol -/

theorem hasRemaining_source (l : List T) :
    hasRemaining (.source l) = (!l.isEmpty, .source l) := by
  unfold hasRemaining hasRem
  rfl

theorem hasRemaining_filter (cond : T → Bool) (look : Option T) (prev : Pipeline T) :
    hasRemaining (.filter cond look prev) =
      ((seekF cond prev).1, .filter cond (seekF cond prev).2.1 (seekF cond prev).2.2) := by
  unfold hasRemaining seekF
  conv_lhs => rw [hasRem.eq_def]

theorem hasRemaining_limit (maxSize cnt : Nat) (prev : Pipeline T) :
    hasRemaining (.limit maxSize cnt prev) =
      ((hasRemaining prev).1 && decide (cnt < maxSize),
        .limit maxSize cnt (hasRemaining prev).2) := by
  simp [hasRemaining, hasRem]

theorem hasRemaining_skip (n cnt : Nat) (prev : Pipeline T) :
    hasRemaining (.skip n cnt prev) =
      ((hasRemaining (skipL n cnt prev).2).1,
        .skip n (skipL n cnt prev).1 (hasRemaining (skipL n cnt prev).2).2) := by
  simp [hasRemaining, skipL, hasRem]

theorem hasRemaining_distinct (beq : T → T → Bool) (seen : List T) (look : Option T)
    (prev : Pipeline T) :
    hasRemaining (.distinct beq seen look prev) =
      ((seekD beq seen prev).1,
        .distinct beq (seekD beq seen prev).2.1
          (if (seekD beq seen prev).1 then (seekD beq seen prev).2.2.1 else look)
          (seekD beq seen prev).2.2.2) := by
  simp [hasRemaining, seekD, hasRem]

theorem hasRemaining_map (f : T → T) (prev : Pipeline T) :
    hasRemaining (.map f prev) =
      ((hasRemaining prev).1, .map f (hasRemaining prev).2) := by
  simp [hasRemaining, hasRem]

theorem seekF_false (cond : T → Bool) (prev : Pipeline T)
    (h : (hasRemaining prev).1 = false) :
    seekF cond prev = (false, none, (hasRemaining prev).2) := by
  have h' : ¬((hasRem prev).val.1 = true) := by simpa [hasRemaining] using h
  unfold seekF
  conv_lhs => rw [seekFilter.eq_def]
  simp only [dif_neg h']
  simp [hasRemaining]

theorem seekF_true_match (cond : T → Bool) (prev : Pipeline T)
    (h : (hasRemaining prev).1 = true)
    (hc : cond (next (hasRemaining prev).2).1 = true) :
    seekF cond prev =
      (true, some (next (hasRemaining prev).2).1, (next (hasRemaining prev).2).2) := by
  have h' : (hasRem prev).val.1 = true := by simpa [hasRemaining] using h
  unfold seekF
  conv_lhs => rw [seekFilter.eq_def]
  simp only [dif_pos h']
  simp only [hasRemaining] at hc
  simp [hc, hasRemaining]

theorem seekF_true_skip (cond : T → Bool) (prev : Pipeline T)
    (h : (hasRemaining prev).1 = true)
    (hc : cond (next (hasRemaining prev).2).1 = false) :
    seekF cond prev =
      ((seekF cond (next (hasRemaining prev).2).2).1,
        some ((seekF cond (next (hasRemaining prev).2).2).2.1.getD
          (next (hasRemaining prev).2).1),
        (seekF cond (next (hasRemaining prev).2).2).2.2) := by
  have h' : (hasRem prev).val.1 = true := by simpa [hasRemaining] using h
  unfold seekF
  conv_lhs => rw [seekFilter.eq_def]
  simp only [dif_pos h']
  simp only [hasRemaining] at hc
  simp [hc, seekF, hasRemaining]

theorem seekD_false (beq : T → T → Bool) (seen : List T) (prev : Pipeline T)
    (h : (hasRemaining prev).1 = false) :
    seekD beq seen prev = (false, seen, none, (hasRemaining prev).2) := by
  have h' : ¬((hasRem prev).val.1 = true) := by simpa [hasRemaining] using h
  unfold seekD
  conv_lhs => rw [seekDistinct.eq_def]
  simp only [dif_neg h']
  simp [hasRemaining]

theorem seekD_true_dup (beq : T → T → Bool) (seen : List T) (prev : Pipeline T)
    (h : (hasRemaining prev).1 = true)
    (hdup : seen.any (beq (next (hasRemaining prev).2).1) = true) :
    seekD beq seen prev = seekD beq seen (next (hasRemaining prev).2).2 := by
  have h' : (hasRem prev).val.1 = true := by simpa [hasRemaining] using h
  unfold seekD
  conv_lhs => rw [seekDistinct.eq_def]
  simp only [dif_pos h']
  simp only [hasRemaining] at hdup
  simp [hdup, seekD, hasRemaining]

theorem seekD_true_fresh (beq : T → T → Bool) (seen : List T) (prev : Pipeline T)
    (h : (hasRemaining prev).1 = true)
    (hdup : seen.any (beq (next (hasRemaining prev).2).1) = false) :
    seekD beq seen prev =
      (true, (next (hasRemaining prev).2).1 :: seen,
        some (next (hasRemaining prev).2).1, (next (hasRemaining prev).2).2) := by
  have h' : (hasRem prev).val.1 = true := by simpa [hasRemaining] using h
  unfold seekD
  conv_lhs => rw [seekDistinct.eq_def]
  simp only [dif_pos h']
  simp only [hasRemaining] at hdup
  simp [hdup, hasRemaining]

theorem skipL_done (n cnt : Nat) (prev : Pipeline T) (h : ¬(cnt < n)) :
    skipL n cnt prev = (cnt, prev) := by
  unfold skipL
  conv_lhs => rw [skipLoop.eq_def]
  simp only [if_neg h]

theorem skipL_stop (n cnt : Nat) (prev : Pipeline T) (hcnt : cnt < n)
    (h : (hasRemaining prev).1 = false) :
    skipL n cnt prev = (cnt, (hasRemaining prev).2) := by
  have h' : ¬((hasRem prev).val.1 = true) := by simpa [hasRemaining] using h
  unfold skipL
  conv_lhs => rw [skipLoop.eq_def]
  simp only [if_pos hcnt, dif_neg h']
  simp [hasRemaining]

theorem skipL_pull (n cnt : Nat) (prev : Pipeline T) (hcnt : cnt < n)
    (h : (hasRemaining prev).1 = true) :
    skipL n cnt prev = skipL n (cnt + 1) (next (hasRemaining prev).2).2 := by
  have h' : (hasRem prev).val.1 = true := by simpa [hasRemaining] using h
  unfold skipL
  conv_lhs => rw [skipLoop.eq_def]
  simp only [if_pos hcnt, dif_pos h']
  simp [skipL, hasRemaining]

/-! ### Terminal operations

Each terminal operation of `Stream` drains the pipeline through the two
primitives.  The embedding returns the C++ return value together with the
final state of the chain (the state of the C++ stream object after the
call). -/

/-- `Stream::count`: `for(count = 0; hasRemaining(); ++count) next();`. -/
def count (p : Pipeline T) : Nat × Pipeline T :=
  let r := hasRemaining p
  if h : r.1 = true then
    let c := count (next r.2).2
    (c.1 + 1, c.2)
  else (0, r.2)
termination_by elems p
decreasing_by exact hasRemaining_true_lt p h

/-- `Stream::collect` into a sequential container: repeatedly inserts the
drained elements at the end; the result list is in drain order. -/
def collect (p : Pipeline T) : List T × Pipeline T :=
  let r := hasRemaining p
  if h : r.1 = true then
    let n := next r.2
    let c := collect n.2
    (n.1 :: c.1, c.2)
  else ([], r.2)
termination_by elems p
decreasing_by exact hasRemaining_true_lt p h

/-- `Stream::allMatch`. -/
def allMatch (condition : T → Bool) (p : Pipeline T) : Bool × Pipeline T :=
  let r := hasRemaining p
  if h : r.1 = true then
    let n := next r.2
    if condition n.1 then allMatch condition n.2 else (false, n.2)
  else (true, r.2)
termination_by elems p
decreasing_by exact hasRemaining_true_lt p h

/-- `Stream::anyMatch`. -/
def anyMatch (condition : T → Bool) (p : Pipeline T) : Bool × Pipeline T :=
  let r := hasRemaining p
  if h : r.1 = true then
    let n := next r.2
    if condition n.1 then (true, n.2) else anyMatch condition n.2
  else (false, r.2)
termination_by elems p
decreasing_by exact hasRemaining_true_lt p h

/-- `Stream::noneMatch`. -/
def noneMatch (condition : T → Bool) (p : Pipeline T) : Bool × Pipeline T :=
  let r := hasRemaining p
  if h : r.1 = true then
    let n := next r.2
    if condition n.1 then (false, n.2) else noneMatch condition n.2
  else (true, r.2)
termination_by elems p
decreasing_by exact hasRemaining_true_lt p h

/-- `Stream::findFirst`. -/
def findFirst (p : Pipeline T) : Option T × Pipeline T :=
  let r := hasRemaining p
  if r.1 = true then
    let n := next r.2
    (some n.1, n.2)
  else (none, r.2)

/-- `Stream::maxMinInternal`: linear scan keeping the current extremum in
`result`; the `comparator` BiPredicate decides whether the next element
replaces it. -/
def maxMinInternal (comparator : T → T → Bool) (result : Option T) (p : Pipeline T) :
    Option T × Pipeline T :=
  let r := hasRemaining p
  if h : r.1 = true then
    match result with
    | some v =>
        let n := next r.2
        maxMinInternal comparator (if comparator n.1 v then some n.1 else some v) n.2
    | none =>
        let n := next r.2
        maxMinInternal comparator (some n.1) n.2
  else (result, r.2)
termination_by elems p
decreasing_by
  · exact hasRemaining_true_lt p h
  · exact hasRemaining_true_lt p h

/-- `Stream::max(Comparator)`:
`maxMinInternal([&](T next, T old) { return comparator(next, old) > 0; })`. -/
def maxWithComparator (comparator : T → T → Int) (p : Pipeline T) : Option T × Pipeline T :=
  maxMinInternal (fun nxt old => decide (comparator nxt old > 0)) none p

/-- `Stream::min(Comparator)`:
`maxMinInternal([&](T next, T old) { return comparator(next, old) < 0; })`. -/
def minWithComparator (comparator : T → T → Int) (p : Pipeline T) : Option T × Pipeline T :=
  maxMinInternal (fun nxt old => decide (comparator nxt old < 0)) none p

/-- `Stream::max()` (no comparator): `next > old` on the natural order. -/
def maxNatural {U : Type} [Inhabited U] [LinearOrder U] (p : Pipeline U) :
    Option U × Pipeline U :=
  maxMinInternal (fun nxt old => decide (nxt > old)) none p

/-- `Stream::min()` (no comparator): `next < old` on the natural order. -/
def minNatural {U : Type} [Inhabited U] [LinearOrder U] (p : Pipeline U) :
    Option U × Pipeline U :=
  maxMinInternal (fun nxt old => decide (nxt < old)) none p

/-- `Stream::reduceInternal`: left fold, seeded with `result`;
`result = result.has_value() ? accumulator(result.value(), next()) : next();`. -/
def reduceInternal (result : Option T) (accumulator : T → T → T) (p : Pipeline T) :
    Option T × Pipeline T :=
  let r := hasRemaining p
  if h : r.1 = true then
    let n := next r.2
    reduceInternal
      (some (match result with
             | some v => accumulator v n.1
             | none => n.1)) accumulator n.2
  else (result, r.2)
termination_by elems p
decreasing_by exact hasRemaining_true_lt p h

/-- `Stream::reduce(accumulator)`: starts from the empty optional. -/
def reduce (accumulator : T → T → T) (p : Pipeline T) : Option T × Pipeline T :=
  reduceInternal none accumulator p

/-- `Stream::reduce(identity, accumulator)`: starts from the identity. -/
def reduceWithIdentity (identity : T) (accumulator : T → T → T) (p : Pipeline T) :
    Option T × Pipeline T :=
  reduceInternal (some identity) accumulator p

/-- Accumulation loop of `Stream::average`:
`while (hasRemaining()) { result += next(); ++count; }`. -/
def averageLoop (result : Int) (cnt : Nat) (p : Pipeline Int) : Int × Nat × Pipeline Int :=
  let r := hasRemaining p
  if h : r.1 = true then
    let n := next r.2
    averageLoop (result + n.1) (cnt + 1) n.2
  else (result, cnt, r.2)
termination_by elems p
decreasing_by exact hasRemaining_true_lt p h

/-- Usual arithmetic conversion of the `int` accumulator of
`Stream::average` to `size_t` (64-bit unsigned on the modelled LP64
platform): the two's-complement bit pattern reinterpreted as an unsigned
value, i.e. the representative of `x` modulo `2^64`. -/
def toSizeT (x : Int) : Nat := (x % (2 ^ 64 : Int)).toNat

/-- Narrowing conversion of the 64-bit unsigned quotient back to the
32-bit `int` return type of `Stream::average` (two's complement). -/
def toIntR (n : Nat) : Int :=
  if n % 2 ^ 32 < 2 ^ 31 then ((n % 2 ^ 32 : Nat) : Int)
  else ((n % 2 ^ 32 : Nat) : Int) - 2 ^ 32

/-- `Stream::average(identity)` at accumulation type `R = int`:
`R result = identity; ...; return count == 0 ? identity : result / count;`.
In `result / count` the `int` accumulator undergoes the usual arithmetic
conversion to `size_t` (the type of `count`), the division is unsigned,
and the quotient is narrowed back to `int` by the return; `toSizeT` and
`toIntR` model those two conversions (`/` on `Nat` is the unsigned
division).  The accumulation itself stays an unbounded `Int`, modelling
the executions in which the `int` additions do not overflow (signed
overflow is undefined behaviour). -/
def average (identity : Int) (p : Pipeline Int) : Int × Pipeline Int :=
  let l := averageLoop identity 0 p
  (if l.2.1 = 0 then identity else toIntR (toSizeT l.1 / l.2.1), l.2.2)

/-! ### Unfolding equations for the terminal operations -/

theorem count_true (p : Pipeline T) (h : (hasRemaining p).1 = true) :
    count p = ((count (next (hasRemaining p).2).2).1 + 1,
               (count (next (hasRemaining p).2).2).2) := by
  conv_lhs => rw [count.eq_def]
  simp only [dif_pos h]

theorem count_false (p : Pipeline T) (h : (hasRemaining p).1 = false) :
    count p = (0, (hasRemaining p).2) := by
  have h' : ¬((hasRemaining p).1 = true) := by simp [h]
  conv_lhs => rw [count.eq_def]
  simp only [dif_neg h']

theorem collect_true (p : Pipeline T) (h : (hasRemaining p).1 = true) :
    collect p = ((next (hasRemaining p).2).1 :: (collect (next (hasRemaining p).2).2).1,
                 (collect (next (hasRemaining p).2).2).2) := by
  conv_lhs => rw [collect.eq_def]
  simp only [dif_pos h]

theorem collect_false (p : Pipeline T) (h : (hasRemaining p).1 = false) :
    collect p = ([], (hasRemaining p).2) := by
  have h' : ¬((hasRemaining p).1 = true) := by simp [h]
  conv_lhs => rw [collect.eq_def]
  simp only [dif_neg h']

theorem allMatch_true (condition : T → Bool) (p : Pipeline T)
    (h : (hasRemaining p).1 = true) :
    allMatch condition p =
      (if condition (next (hasRemaining p).2).1 then
        allMatch condition (next (hasRemaining p).2).2
      else (false, (next (hasRemaining p).2).2)) := by
  conv_lhs => rw [allMatch.eq_def]
  simp only [dif_pos h]

theorem allMatch_false (condition : T → Bool) (p : Pipeline T)
    (h : (hasRemaining p).1 = false) :
    allMatch condition p = (true, (hasRemaining p).2) := by
  have h' : ¬((hasRemaining p).1 = true) := by simp [h]
  conv_lhs => rw [allMatch.eq_def]
  simp only [dif_neg h']

theorem anyMatch_true (condition : T → Bool) (p : Pipeline T)
    (h : (hasRemaining p).1 = true) :
    anyMatch condition p =
      (if condition (next (hasRemaining p).2).1 then
        (true, (next (hasRemaining p).2).2)
      else anyMatch condition (next (hasRemaining p).2).2) := by
  conv_lhs => rw [anyMatch.eq_def]
  simp only [dif_pos h]

theorem anyMatch_false (condition : T → Bool) (p : Pipeline T)
    (h : (hasRemaining p).1 = false) :
    anyMatch condition p = (false, (hasRemaining p).2) := by
  have h' : ¬((hasRemaining p).1 = true) := by simp [h]
  conv_lhs => rw [anyMatch.eq_def]
  simp only [dif_neg h']

theorem noneMatch_true (condition : T → Bool) (p : Pipeline T)
    (h : (hasRemaining p).1 = true) :
    noneMatch condition p =
      (if condition (next (hasRemaining p).2).1 then
        (false, (next (hasRemaining p).2).2)
      else noneMatch condition (next (hasRemaining p).2).2) := by
  conv_lhs => rw [noneMatch.eq_def]
  simp only [dif_pos h]

theorem noneMatch_false (condition : T → Bool) (p : Pipeline T)
    (h : (hasRemaining p).1 = false) :
    noneMatch condition p = (true, (hasRemaining p).2) := by
  have h' : ¬((hasRemaining p).1 = true) := by simp [h]
  conv_lhs => rw [noneMatch.eq_def]
  simp only [dif_neg h']

theorem findFirst_true (p : Pipeline T) (h : (hasRemaining p).1 = true) :
    findFirst p = (some (next (hasRemaining p).2).1, (next (hasRemaining p).2).2) := by
  simp only [findFirst, if_pos h]

theorem findFirst_false (p : Pipeline T) (h : (hasRemaining p).1 = false) :
    findFirst p = (none, (hasRemaining p).2) := by
  have h' : ¬((hasRemaining p).1 = true) := by simp [h]
  simp only [findFirst, if_neg h']

theorem maxMinInternal_some (comparator : T → T → Bool) (v : T) (p : Pipeline T)
    (h : (hasRemaining p).1 = true) :
    maxMinInternal comparator (some v) p =
      maxMinInternal comparator
        (if comparator (next (hasRemaining p).2).1 v then
          some (next (hasRemaining p).2).1 else some v)
        (next (hasRemaining p).2).2 := by
  conv_lhs => rw [maxMinInternal.eq_def]
  simp only [dif_pos h]

theorem maxMinInternal_none (comparator : T → T → Bool) (p : Pipeline T)
    (h : (hasRemaining p).1 = true) :
    maxMinInternal comparator none p =
      maxMinInternal comparator (some (next (hasRemaining p).2).1)
        (next (hasRemaining p).2).2 := by
  conv_lhs => rw [maxMinInternal.eq_def]
  simp only [dif_pos h]

theorem maxMinInternal_false (comparator : T → T → Bool) (result : Option T)
    (p : Pipeline T) (h : (hasRemaining p).1 = false) :
    maxMinInternal comparator result p = (result, (hasRemaining p).2) := by
  have h' : ¬((hasRemaining p).1 = true) := by simp [h]
  conv_lhs => rw [maxMinInternal.eq_def]
  simp only [dif_neg h']

theorem reduceInternal_true (result : Option T) (accumulator : T → T → T)
    (p : Pipeline T) (h : (hasRemaining p).1 = true) :
    reduceInternal result accumulator p =
      reduceInternal
        (some (match result with
               | some v => accumulator v (next (hasRemaining p).2).1
               | none => (next (hasRemaining p).2).1))
        accumulator (next (hasRemaining p).2).2 := by
  conv_lhs => rw [reduceInternal.eq_def]
  simp only [dif_pos h]

theorem reduceInternal_false (result : Option T) (accumulator : T → T → T)
    (p : Pipeline T) (h : (hasRemaining p).1 = false) :
    reduceInternal result accumulator p = (result, (hasRemaining p).2) := by
  have h' : ¬((hasRemaining p).1 = true) := by simp [h]
  conv_lhs => rw [reduceInternal.eq_def]
  simp only [dif_neg h']

theorem averageLoop_true (result : Int) (cnt : Nat) (p : Pipeline Int)
    (h : (hasRemaining p).1 = true) :
    averageLoop result cnt p =
      averageLoop (result + (next (hasRemaining p).2).1) (cnt + 1)
        (next (hasRemaining p).2).2 := by
  conv_lhs => rw [averageLoop.eq_def]
  simp only [dif_pos h]

theorem averageLoop_false (result : Int) (cnt : Nat) (p : Pipeline Int)
    (h : (hasRemaining p).1 = false) :
    averageLoop result cnt p = (result, cnt, (hasRemaining p).2) := by
  have h' : ¬((hasRemaining p).1 = true) := by simp [h]
  conv_lhs => rw [averageLoop.eq_def]
  simp only [dif_neg h']

/-! ### Behaviour of the stages over a source -/

theorem hasRemaining_source_nil : (hasRemaining (.source ([] : List T))).1 = false := by
  simp [hasRemaining_source]

theorem hasRemaining_source_cons (a : T) (l : List T) :
    (hasRemaining (.source (a :: l))).1 = true := by
  simp [hasRemaining_source]

theorem next_source_cons (a : T) (l : List T) :
    next (.source (a :: l)) = (a, .source l) := by
  simp [next]

/-- `collect` is determined by the pipeline's observable behaviour: states
with identical `hasRemaining` outcomes collect identically. -/
theorem collect_hasRem_congr (p q : Pipeline T) (h : hasRemaining p = hasRemaining q) :
    collect p = collect q := by
  by_cases hb : (hasRemaining p).1 = true
  · rw [collect_true p hb, collect_true q (by rw [← h]; exact hb), h]
  · have hb' : (hasRemaining p).1 = false := by simpa using hb
    rw [collect_false p hb', collect_false q (by rw [← h]; exact hb'), h]

/-- `count` counts exactly the elements that `collect` gathers, and leaves
the chain in the same final state. -/
theorem count_eq_collect (p : Pipeline T) :
    count p = ((collect p).1.length, (collect p).2) := by
  by_cases h : (hasRemaining p).1 = true
  · have ih := count_eq_collect (next (hasRemaining p).2).2
    rw [count_true p h, collect_true p h, ih]
    simp
  · have h' : (hasRemaining p).1 = false := by simpa using h
    rw [count_false p h', collect_false p h']
    simp
termination_by elems p
decreasing_by exact hasRemaining_true_lt p h

/-- A source drains to exactly its element list, in order. -/
theorem collect_source : ∀ l : List T, collect (.source l) = (l, .source [])
  | [] => by
      rw [collect_false _ hasRemaining_source_nil]
      simp [hasRemaining_source]
  | a :: l => by
      rw [collect_true _ (hasRemaining_source_cons a l)]
      have ih := collect_source l
      simp [hasRemaining_source, next, ih]

theorem count_source (l : List T) : count (.source l) = (l.length, .source []) := by
  rw [count_eq_collect, collect_source]

/-- A filter stage over a source drains to exactly the matching elements,
whatever the initial content of the lookahead slot. -/
theorem collect_filter_source (cond : T → Bool) :
    ∀ (l : List T) (look : Option T),
      (collect (.filter cond look (.source l))).1 = l.filter cond
  | [], look => by
      have hf : (hasRemaining (.filter cond look (.source ([] : List T)))).1 = false := by
        rw [hasRemaining_filter, seekF_false _ _ hasRemaining_source_nil]
      rw [collect_false _ hf]
      simp
  | a :: l, look => by
      have hsrc := hasRemaining_source_cons a l
      by_cases hc : cond a = true
      · have hseek := seekF_true_match cond (.source (a :: l)) hsrc
          (by simpa [hasRemaining_source, next] using hc)
        simp only [hasRemaining_source, next_source_cons] at hseek
        have hhr : hasRemaining (.filter cond look (.source (a :: l))) =
            (true, .filter cond (some a) (.source l)) := by
          rw [hasRemaining_filter, hseek]
        rw [collect_true _ (by rw [hhr])]
        rw [hhr]
        have ih := collect_filter_source cond l (some a)
        simp [next, ih, hc]
      · have hc' : cond a = false := by simpa using hc
        have hseek := seekF_true_skip cond (.source (a :: l)) hsrc
          (by simpa [hasRemaining_source, next] using hc')
        simp only [hasRemaining_source, next_source_cons] at hseek
        by_cases hs : (seekF cond (.source l)).1 = true
        · obtain ⟨hsome, _⟩ := seekF_true cond (.source l) hs
          obtain ⟨m, hm⟩ := Option.isSome_iff_exists.mp hsome
          have heq : hasRemaining (.filter cond look (.source (a :: l))) =
              hasRemaining (.filter cond look (.source l)) := by
            rw [hasRemaining_filter, hasRemaining_filter, hseek, hm]
            simp
          rw [collect_hasRem_congr _ _ heq, collect_filter_source cond l look]
          simp [hc']
        · have hs' : (seekF cond (.source l)).1 = false := by simpa using hs
          have hfA : (hasRemaining (.filter cond look (.source (a :: l)))).1 = false := by
            rw [hasRemaining_filter, hseek]
            simpa using hs'
          rw [collect_false _ hfA]
          have hfB := collect_filter_source cond l look
          have hempty : (collect (.filter cond look (.source l))).1 = [] := by
            rw [collect_false]
            rw [hasRemaining_filter]
            simpa using hs'
          rw [hfB] at hempty
          simp [hc', ← hempty]

/-- A limit stage over a source drains to exactly the first
`MaxSize - m_Count` elements. -/
theorem collect_limit_source (maxSize : Nat) :
    ∀ (l : List T) (cnt : Nat),
      (collect (.limit maxSize cnt (.source l))).1 = l.take (maxSize - cnt)
  | [], cnt => by
      have hf : (hasRemaining (.limit maxSize cnt (.source ([] : List T)))).1 = false := by
        rw [hasRemaining_limit]
        simp [hasRemaining_source]
      rw [collect_false _ hf]
      simp
  | a :: l, cnt => by
      by_cases hcnt : cnt < maxSize
      · have hhr : hasRemaining (.limit maxSize cnt (.source (a :: l))) =
            (true, .limit maxSize cnt (.source (a :: l))) := by
          rw [hasRemaining_limit, hasRemaining_source]
          simp [hcnt]
        rw [collect_true _ (by rw [hhr])]
        rw [hhr]
        have ih := collect_limit_source maxSize l (cnt + 1)
        simp only [next, List.headD_cons, List.tail_cons]
        rw [ih]
        have : maxSize - cnt = (maxSize - (cnt + 1)) + 1 := by omega
        rw [this, List.take_succ_cons]
      · have hf : (hasRemaining (.limit maxSize cnt (.source (a :: l)))).1 = false := by
          rw [hasRemaining_limit]
          simp [hcnt]
        rw [collect_false _ hf]
        have : maxSize - cnt = 0 := by omega
        simp [this]

/-- Pure recursion describing what the distinct stage emits from a source
list, given the current content of `m_Set`: drop every element equal to a
stored one, keep and store the others. -/
def ddF (beq : T → T → Bool) (seen : List T) : List T → List T
  | [] => []
  | a :: l => if seen.any (beq a) then ddF beq seen l else a :: ddF beq (a :: seen) l

/-- A distinct stage over a source drains to exactly `ddF` of the list. -/
theorem collect_distinct_source (beq : T → T → Bool) :
    ∀ (l seen : List T) (look : Option T),
      (collect (.distinct beq seen look (.source l))).1 = ddF beq seen l
  | [], seen, look => by
      have hf : (hasRemaining (.distinct beq seen look (.source ([] : List T)))).1 = false := by
        rw [hasRemaining_distinct, seekD_false _ _ _ hasRemaining_source_nil]
      rw [collect_false _ hf]
      simp [ddF]
  | a :: l, seen, look => by
      have hsrc := hasRemaining_source_cons a l
      by_cases hdup : seen.any (beq a) = true
      · have hseek := seekD_true_dup beq seen (.source (a :: l)) hsrc
          (by simpa [hasRemaining_source, next] using hdup)
        simp only [hasRemaining_source, next_source_cons] at hseek
        have heq : hasRemaining (.distinct beq seen look (.source (a :: l))) =
            hasRemaining (.distinct beq seen look (.source l)) := by
          rw [hasRemaining_distinct, hasRemaining_distinct, hseek]
        rw [collect_hasRem_congr _ _ heq, collect_distinct_source beq l seen look]
        simp [ddF, hdup]
      · have hdup' : seen.any (beq a) = false := by simpa using hdup
        have hseek := seekD_true_fresh beq seen (.source (a :: l)) hsrc
          (by simpa [hasRemaining_source, next] using hdup')
        simp only [hasRemaining_source, next_source_cons] at hseek
        have hhr : hasRemaining (.distinct beq seen look (.source (a :: l))) =
            (true, .distinct beq (a :: seen) (some a) (.source l)) := by
          rw [hasRemaining_distinct, hseek]
          simp
        rw [collect_true _ (by rw [hhr])]
        rw [hhr]
        have ih := collect_distinct_source beq l (a :: seen) (some a)
        simp [next, ih, ddF, hdup']

theorem ddF_sublist (beq : T → T → Bool) :
    ∀ (l seen : List T), List.Sublist (ddF beq seen l) l
  | [], seen => by simp [ddF]
  | a :: l, seen => by
      by_cases hdup : seen.any (beq a) = true
      · simpa [ddF, hdup] using (ddF_sublist beq l seen).cons a
      · have hdup' : seen.any (beq a) = false := by simpa using hdup
        simpa [ddF, hdup'] using (ddF_sublist beq l (a :: seen)).cons₂ a

/-- Membership test used by the modelled `std::unordered_set` under value
equality. -/
theorem any_beq_eq_mem [DecidableEq T] (a : T) (seen : List T) :
    (seen.any fun y => decide (a = y)) = true ↔ a ∈ seen := by
  simp [List.any_eq_true]

theorem ddF_mem [DecidableEq T] :
    ∀ (l seen : List T) (x : T),
      x ∈ ddF (fun a b => decide (a = b)) seen l ↔ x ∈ l ∧ x ∉ seen
  | [], seen, x => by simp [ddF]
  | a :: l, seen, x => by
      by_cases hdup : (seen.any fun y => decide (a = y)) = true
      · have hmem : a ∈ seen := (any_beq_eq_mem a seen).mp hdup
        rw [ddF, if_pos hdup, ddF_mem l seen x]
        constructor
        · rintro ⟨hl, hs⟩
          exact ⟨List.mem_cons_of_mem a hl, hs⟩
        · rintro ⟨hl, hs⟩
          rcases List.mem_cons.mp hl with rfl | hl
          · exact absurd hmem hs
          · exact ⟨hl, hs⟩
      · have hmem : a ∉ seen := fun hm => hdup ((any_beq_eq_mem a seen).mpr hm)
        rw [ddF, if_neg hdup]
        simp only [List.mem_cons, ddF_mem l (a :: seen) x]
        constructor
        · rintro (rfl | ⟨hl, hs⟩)
          · exact ⟨Or.inl rfl, hmem⟩
          · exact ⟨Or.inr hl, fun hx => hs (Or.inr hx)⟩
        · rintro ⟨hca, hs⟩
          rcases hca with rfl | hl
          · exact Or.inl rfl
          · rcases eq_or_ne x a with rfl | hxa
            · exact Or.inl rfl
            · exact Or.inr ⟨hl, fun hx => hx.elim (fun h => hxa h) (fun h => hs h)⟩

theorem ddF_nodup [DecidableEq T] :
    ∀ (l seen : List T), (ddF (fun a b => decide (a = b)) seen l).Nodup
  | [], seen => by simp [ddF]
  | a :: l, seen => by
      by_cases hdup : (seen.any fun y => decide (a = y)) = true
      · rw [ddF, if_pos hdup]
        exact ddF_nodup l seen
      · rw [ddF, if_neg hdup]
        refine List.nodup_cons.mpr ⟨fun hmem => ?_, ddF_nodup l (a :: seen)⟩
        have := (ddF_mem l (a :: seen) a).mp hmem
        exact this.2 (List.mem_cons_self a seen)

/-- The filter seek over a source consumes the non-matching head segment
and caches the first match. -/
theorem seekF_source_split (cond : T → Bool) :
    ∀ (l₁ : List T) (x : T) (l₂ : List T),
      (∀ y ∈ l₁, cond y = false) → cond x = true →
      seekF cond (.source (l₁ ++ x :: l₂)) = (true, some x, .source l₂)
  | [], x, l₂, h₁, hx => by
      rw [List.nil_append]
      rw [seekF_true_match cond _ (hasRemaining_source_cons x l₂)
        (by simpa [hasRemaining_source, next] using hx)]
      simp [hasRemaining_source, next]
  | a :: l₁, x, l₂, h₁, hx => by
      have ha : cond a = false := h₁ a (by simp)
      rw [List.cons_append]
      rw [seekF_true_skip cond _ (hasRemaining_source_cons a _)
        (by simpa [hasRemaining_source, next] using ha)]
      simp only [hasRemaining_source, Bool.not_eq_true, next_source_cons]
      rw [seekF_source_split cond l₁ x l₂ (fun y hy => h₁ y (by simp [hy])) hx]
      simp

/-- `allMatch` drains up to and including the first failing element, and
returns false; the rest of the source is not consumed. -/
theorem allMatch_source_split (cond : T → Bool) :
    ∀ (l₁ : List T) (x : T) (l₂ : List T),
      (∀ y ∈ l₁, cond y = true) → cond x = false →
      allMatch cond (.source (l₁ ++ x :: l₂)) = (false, .source l₂)
  | [], x, l₂, h₁, hx => by
      rw [List.nil_append,
        allMatch_true cond _ (hasRemaining_source_cons x l₂)]
      simp [hasRemaining_source, next, hx]
  | a :: l₁, x, l₂, h₁, hx => by
      have ha : cond a = true := h₁ a (by simp)
      rw [List.cons_append,
        allMatch_true cond _ (hasRemaining_source_cons a _)]
      simp only [hasRemaining_source, next_source_cons, ha, if_true]
      exact allMatch_source_split cond l₁ x l₂ (fun y hy => h₁ y (by simp [hy])) hx

theorem allMatch_source_all (cond : T → Bool) :
    ∀ l : List T, (∀ y ∈ l, cond y = true) →
      allMatch cond (.source l) = (true, .source [])
  | [], h => by
      rw [allMatch_false cond _ hasRemaining_source_nil]
      simp [hasRemaining_source]
  | a :: l, h => by
      have ha : cond a = true := h a (by simp)
      rw [allMatch_true cond _ (hasRemaining_source_cons a l)]
      simp only [hasRemaining_source, next_source_cons, ha, if_true]
      exact allMatch_source_all cond l (fun y hy => h y (by simp [hy]))

/-- `anyMatch` drains up to and including the first matching element, and
returns true. -/
theorem anyMatch_source_split (cond : T → Bool) :
    ∀ (l₁ : List T) (x : T) (l₂ : List T),
      (∀ y ∈ l₁, cond y = false) → cond x = true →
      anyMatch cond (.source (l₁ ++ x :: l₂)) = (true, .source l₂)
  | [], x, l₂, h₁, hx => by
      rw [List.nil_append,
        anyMatch_true cond _ (hasRemaining_source_cons x l₂)]
      simp [hasRemaining_source, next, hx]
  | a :: l₁, x, l₂, h₁, hx => by
      have ha : cond a = false := h₁ a (by simp)
      rw [List.cons_append,
        anyMatch_true cond _ (hasRemaining_source_cons a _)]
      simp only [hasRemaining_source, next_source_cons, ha, Bool.false_eq_true,
        if_false]
      exact anyMatch_source_split cond l₁ x l₂ (fun y hy => h₁ y (by simp [hy])) hx

theorem anyMatch_source_none (cond : T → Bool) :
    ∀ l : List T, (∀ y ∈ l, cond y = false) →
      anyMatch cond (.source l) = (false, .source [])
  | [], h => by
      rw [anyMatch_false cond _ hasRemaining_source_nil]
      simp [hasRemaining_source]
  | a :: l, h => by
      have ha : cond a = false := h a (by simp)
      rw [anyMatch_true cond _ (hasRemaining_source_cons a l)]
      simp only [hasRemaining_source, next_source_cons, ha, Bool.false_eq_true,
        if_false]
      exact anyMatch_source_none cond l (fun y hy => h y (by simp [hy]))

/-- `noneMatch` drains up to and including the first matching element, and
returns false. -/
theorem noneMatch_source_split (cond : T → Bool) :
    ∀ (l₁ : List T) (x : T) (l₂ : List T),
      (∀ y ∈ l₁, cond y = false) → cond x = true →
      noneMatch cond (.source (l₁ ++ x :: l₂)) = (false, .source l₂)
  | [], x, l₂, h₁, hx => by
      rw [List.nil_append,
        noneMatch_true cond _ (hasRemaining_source_cons x l₂)]
      simp [hasRemaining_source, next, hx]
  | a :: l₁, x, l₂, h₁, hx => by
      have ha : cond a = false := h₁ a (by simp)
      rw [List.cons_append,
        noneMatch_true cond _ (hasRemaining_source_cons a _)]
      simp only [hasRemaining_source, next_source_cons, ha, Bool.false_eq_true,
        if_false]
      exact noneMatch_source_split cond l₁ x l₂ (fun y hy => h₁ y (by simp [hy])) hx

theorem noneMatch_source_none (cond : T → Bool) :
    ∀ l : List T, (∀ y ∈ l, cond y = false) →
      noneMatch cond (.source l) = (true, .source [])
  | [], h => by
      rw [noneMatch_false cond _ hasRemaining_source_nil]
      simp [hasRemaining_source]
  | a :: l, h => by
      have ha : cond a = false := h a (by simp)
      rw [noneMatch_true cond _ (hasRemaining_source_cons a l)]
      simp only [hasRemaining_source, next_source_cons, ha, Bool.false_eq_true,
        if_false]
      exact noneMatch_source_none cond l (fun y hy => h y (by simp [hy]))

/-! ### Scanning terminals over a source -/

theorem maxMinInternal_source_some (comparator : T → T → Bool) :
    ∀ (l : List T) (v : T),
      maxMinInternal comparator (some v) (.source l) =
        (some (l.foldl (fun acc x => if comparator x acc then x else acc) v), .source [])
  | [], v => by
      rw [maxMinInternal_false _ _ _ hasRemaining_source_nil]
      simp [hasRemaining_source]
  | a :: l, v => by
      rw [maxMinInternal_some _ _ _ (hasRemaining_source_cons a l)]
      simp only [hasRemaining_source, next_source_cons]
      by_cases h : comparator a v = true
      · simp only [h, if_true]
        rw [maxMinInternal_source_some comparator l a]
        simp [h]
      · have h' : comparator a v = false := by simpa using h
        simp only [h', Bool.false_eq_true, if_false]
        rw [maxMinInternal_source_some comparator l v]
        simp [h']

theorem maxMinInternal_source_none_nil (comparator : T → T → Bool) :
    maxMinInternal comparator none (.source ([] : List T)) = (none, .source []) := by
  rw [maxMinInternal_false _ _ _ hasRemaining_source_nil]
  simp [hasRemaining_source]

theorem maxMinInternal_source_none_cons (comparator : T → T → Bool) (a : T) (l : List T) :
    maxMinInternal comparator none (.source (a :: l)) =
      (some (l.foldl (fun acc x => if comparator x acc then x else acc) a), .source []) := by
  rw [maxMinInternal_none _ _ (hasRemaining_source_cons a l)]
  simp only [hasRemaining_source, next_source_cons]
  exact maxMinInternal_source_some comparator l a

/-- The left fold computed by the extremum scan always returns an element
of the scanned prefix. -/
theorem extremumFold_mem (comparator : T → T → Bool) :
    ∀ (l : List T) (v : T),
      l.foldl (fun acc x => if comparator x acc then x else acc) v = v ∨
      l.foldl (fun acc x => if comparator x acc then x else acc) v ∈ l
  | [], v => Or.inl rfl
  | a :: l, v => by
      simp only [List.foldl_cons]
      by_cases h : comparator a v = true
      · simp only [h, if_true]
        rcases extremumFold_mem comparator l a with he | he
        · exact Or.inr (by simp [he])
        · exact Or.inr (by simp [he])
      · have h' : comparator a v = false := by simpa using h
        simp only [h', Bool.false_eq_true, if_false]
        rcases extremumFold_mem comparator l v with he | he
        · exact Or.inl he
        · exact Or.inr (by simp [he])

/-- On a linear order, the fold with the strict test `old < x` computes an
upper bound of the scanned elements and the seed. -/
theorem extremumFold_max {U : Type} [LinearOrder U] :
    ∀ (l : List U) (v : U),
      v ≤ l.foldl (fun acc x => if acc < x then x else acc) v ∧
      ∀ x ∈ l, x ≤ l.foldl (fun acc x => if acc < x then x else acc) v
  | [], v => ⟨le_rfl, by simp⟩
  | a :: l, v => by
      simp only [List.foldl_cons]
      by_cases h : v < a
      · simp only [if_pos h]
        obtain ⟨h1, h2⟩ := extremumFold_max l a
        exact ⟨le_of_lt (lt_of_lt_of_le h h1), by
          intro x hx
          rcases List.mem_cons.mp hx with rfl | hx
          · exact h1
          · exact h2 x hx⟩
      · simp only [if_neg h]
        obtain ⟨h1, h2⟩ := extremumFold_max l v
        exact ⟨h1, by
          intro x hx
          rcases List.mem_cons.mp hx with rfl | hx
          · exact le_trans (le_of_not_lt h) h1
          · exact h2 x hx⟩

/-- Dual of `extremumFold_max` for the strict test `x < old`. -/
theorem extremumFold_min {U : Type} [LinearOrder U] :
    ∀ (l : List U) (v : U),
      l.foldl (fun acc x => if x < acc then x else acc) v ≤ v ∧
      ∀ x ∈ l, l.foldl (fun acc x => if x < acc then x else acc) v ≤ x
  | [], v => ⟨le_rfl, by simp⟩
  | a :: l, v => by
      simp only [List.foldl_cons]
      by_cases h : a < v
      · simp only [if_pos h]
        obtain ⟨h1, h2⟩ := extremumFold_min l a
        exact ⟨le_of_lt (lt_of_le_of_lt h1 h), by
          intro x hx
          rcases List.mem_cons.mp hx with rfl | hx
          · exact h1
          · exact h2 x hx⟩
      · simp only [if_neg h]
        obtain ⟨h1, h2⟩ := extremumFold_min l v
        exact ⟨h1, by
          intro x hx
          rcases List.mem_cons.mp hx with rfl | hx
          · exact le_trans h1 (le_of_not_lt h)
          · exact h2 x hx⟩

theorem reduceInternal_source_some (accumulator : T → T → T) :
    ∀ (l : List T) (v : T),
      reduceInternal (some v) accumulator (.source l) =
        (some (l.foldl accumulator v), .source [])
  | [], v => by
      rw [reduceInternal_false _ _ _ hasRemaining_source_nil]
      simp [hasRemaining_source]
  | a :: l, v => by
      rw [reduceInternal_true _ _ _ (hasRemaining_source_cons a l)]
      simp only [hasRemaining_source, next_source_cons]
      rw [reduceInternal_source_some accumulator l (accumulator v a)]
      simp

theorem reduceInternal_source_none_nil (accumulator : T → T → T) :
    reduceInternal none accumulator (.source ([] : List T)) = (none, .source []) := by
  rw [reduceInternal_false _ _ _ hasRemaining_source_nil]
  simp [hasRemaining_source]

theorem reduceInternal_source_none_cons (accumulator : T → T → T) (a : T) (l : List T) :
    reduceInternal none accumulator (.source (a :: l)) =
      (some (l.foldl accumulator a), .source []) := by
  rw [reduceInternal_true _ _ _ (hasRemaining_source_cons a l)]
  simp only [hasRemaining_source, next_source_cons]
  exact reduceInternal_source_some accumulator l a

theorem averageLoop_source :
    ∀ (l : List Int) (result : Int) (cnt : Nat),
      averageLoop result cnt (.source l) = (result + l.sum, cnt + l.length, .source [])
  | [], result, cnt => by
      rw [averageLoop_false _ _ _ hasRemaining_source_nil]
      simp [hasRemaining_source]
  | a :: l, result, cnt => by
      rw [averageLoop_true _ _ _ (hasRemaining_source_cons a l)]
      simp only [hasRemaining_source, next_source_cons]
      rw [averageLoop_source l (result + a) (cnt + 1)]
      simp only [List.sum_cons, List.length_cons, Prod.mk.injEq]
      refine ⟨by ring, by omega, trivial⟩

/-- `average` over a source: the identity seeds the accumulator, so the
result is `(identity + sum) / length` — with the accumulator converted to
`size_t`, divided unsigned, and the quotient narrowed back to `int` — for
a non-empty source, and the identity itself for an empty one. -/
theorem average_source (identity : Int) (l : List Int) :
    average identity (.source l) =
      (if l.length = 0 then identity
        else toIntR (toSizeT (identity + l.sum) / l.length),
        .source []) := by
  unfold average
  rw [averageLoop_source l identity 0]
  simp

/-! ### Permanence of exhaustion -/

/-- A pipeline state whose next `hasRemaining` query answers false. -/
def Exhausted (p : Pipeline T) : Prop := (hasRemaining p).1 = false

/-- Auxiliary induction (on a bound of the chain length): a false
`hasRemaining` answer leaves the chain in a state whose next
`hasRemaining` query is false again. -/
theorem stabAux :
    ∀ (d : Nat) (p : Pipeline T), depth p ≤ d →
      (hasRemaining p).1 = false → (hasRemaining (hasRemaining p).2).1 = false := by
  intro d
  induction d with
  | zero =>
      intro p hd h
      cases p with
      | source l =>
          simp only [hasRemaining_source] at h ⊢
          exact h
      | filter cond look prev => simp [depth] at hd
      | limit maxSize cnt prev => simp [depth] at hd
      | skip n cnt prev => simp [depth] at hd
      | distinct beq seen look prev => simp [depth] at hd
      | map f prev => simp [depth] at hd
  | succ d ih =>
      intro p hd h
      have seekStab : ∀ (n : Nat) (prev : Pipeline T) (cond : T → Bool),
          elems prev ≤ n → depth prev ≤ d → (seekF cond prev).1 = false →
          (hasRemaining (seekF cond prev).2.2).1 = false := by
        intro n
        induction n with
        | zero =>
            intro prev cond he hdp hf
            by_cases hb : (hasRemaining prev).1 = true
            · have := hasRemaining_true_lt prev hb
              omega
            · have hb' : (hasRemaining prev).1 = false := by simpa using hb
              rw [seekF_false _ _ hb'] at hf ⊢
              exact ih prev hdp hb'
        | succ n ihn =>
            intro prev cond he hdp hf
            by_cases hb : (hasRemaining prev).1 = true
            · by_cases hc : cond (next (hasRemaining prev).2).1 = true
              · rw [seekF_true_match _ _ hb hc] at hf
                simp at hf
              · have hc' : cond (next (hasRemaining prev).2).1 = false := by simpa using hc
                rw [seekF_true_skip _ _ hb hc'] at hf ⊢
                refine ihn (next (hasRemaining prev).2).2 cond ?_ ?_ hf
                · have := hasRemaining_true_lt prev hb
                  omega
                · rw [depth_next, hasRemaining_depth]
                  exact hdp
            · have hb' : (hasRemaining prev).1 = false := by simpa using hb
              rw [seekF_false _ _ hb'] at hf ⊢
              exact ih prev hdp hb'
      have seekDStab : ∀ (n : Nat) (prev : Pipeline T) (beq : T → T → Bool) (seen : List T),
          elems prev ≤ n → depth prev ≤ d → (seekD beq seen prev).1 = false →
          (hasRemaining (seekD beq seen prev).2.2.2).1 = false := by
        intro n
        induction n with
        | zero =>
            intro prev beq seen he hdp hf
            by_cases hb : (hasRemaining prev).1 = true
            · have := hasRemaining_true_lt prev hb
              omega
            · have hb' : (hasRemaining prev).1 = false := by simpa using hb
              rw [seekD_false _ _ _ hb'] at hf ⊢
              exact ih prev hdp hb'
        | succ n ihn =>
            intro prev beq seen he hdp hf
            by_cases hb : (hasRemaining prev).1 = true
            · by_cases hdup : (seen.any (beq (next (hasRemaining prev).2).1)) = true
              · rw [seekD_true_dup _ _ _ hb hdup] at hf ⊢
                refine ihn (next (hasRemaining prev).2).2 beq seen ?_ ?_ hf
                · have := hasRemaining_true_lt prev hb
                  omega
                · rw [depth_next, hasRemaining_depth]
                  exact hdp
              · have hdup' : (seen.any (beq (next (hasRemaining prev).2).1)) = false := by
                  simpa using hdup
                rw [seekD_true_fresh _ _ _ hb hdup'] at hf
                simp at hf
            · have hb' : (hasRemaining prev).1 = false := by simpa using hb
              rw [seekD_false _ _ _ hb'] at hf ⊢
              exact ih prev hdp hb'
      cases p with
      | source l =>
          simp only [hasRemaining_source] at h ⊢
          exact h
      | filter cond look prev =>
          have hdp : depth prev ≤ d := by
            simp only [depth] at hd
            omega
          simp only [hasRemaining_filter] at h ⊢
          have hq := seekStab (elems prev) prev cond le_rfl hdp h
          rw [seekF_false _ _ hq]
      | limit maxSize cnt prev =>
          have hdp : depth prev ≤ d := by
            simp only [depth] at hd
            omega
          simp only [hasRemaining_limit] at h ⊢
          rcases Bool.and_eq_false_iff.mp h with h1 | h2
          · have := ih prev hdp h1
            simp [this]
          · simp [h2]
      | skip n cnt prev =>
          have hdp : depth prev ≤ d := by
            simp only [depth] at hd
            omega
          simp only [hasRemaining_skip] at h ⊢
          have hdP : depth (skipL n cnt prev).2 ≤ d := by
            rw [skipL_depth]
            exact hdp
          have hQ := ih (skipL n cnt prev).2 hdP h
          by_cases hC : (skipL n cnt prev).1 < n
          · rw [skipL_stop _ _ _ hC hQ]
            refine ih (hasRemaining (skipL n cnt prev).2).2 ?_ hQ
            rw [hasRemaining_depth, skipL_depth]
            exact hdp
          · rw [skipL_done _ _ _ hC]
            exact hQ
      | distinct beq seen look prev =>
          have hdp : depth prev ≤ d := by
            simp only [depth] at hd
            omega
          simp only [hasRemaining_distinct] at h ⊢
          have hq := seekDStab (elems prev) prev beq seen le_rfl hdp h
          rw [seekD_false _ _ _ hq]
      | map f prev =>
          have hdp : depth prev ≤ d := by
            simp only [depth] at hd
            omega
          simp only [hasRemaining_map] at h ⊢
          exact ih prev hdp h

/-- Exhaustion is permanent: a false `hasRemaining` answer leaves the chain
in a state that answers false again. -/
theorem hasRemaining_false_stable (p : Pipeline T) (h : (hasRemaining p).1 = false) :
    Exhausted (hasRemaining p).2 := stabAux (depth p) p le_rfl h

theorem count_final_exhausted (p : Pipeline T) : Exhausted (count p).2 := by
  by_cases h : (hasRemaining p).1 = true
  · rw [count_true p h]
    exact count_final_exhausted (next (hasRemaining p).2).2
  · have h' : (hasRemaining p).1 = false := by simpa using h
    rw [count_false p h']
    exact hasRemaining_false_stable p h'
termination_by elems p
decreasing_by exact hasRemaining_true_lt p h

theorem collect_final_exhausted (p : Pipeline T) : Exhausted (collect p).2 := by
  by_cases h : (hasRemaining p).1 = true
  · rw [collect_true p h]
    exact collect_final_exhausted (next (hasRemaining p).2).2
  · have h' : (hasRemaining p).1 = false := by simpa using h
    rw [collect_false p h']
    exact hasRemaining_false_stable p h'
termination_by elems p
decreasing_by exact hasRemaining_true_lt p h

theorem reduceInternal_final_exhausted (result : Option T) (accumulator : T → T → T)
    (p : Pipeline T) : Exhausted (reduceInternal result accumulator p).2 := by
  by_cases h : (hasRemaining p).1 = true
  · rw [reduceInternal_true _ _ _ h]
    exact reduceInternal_final_exhausted _ accumulator (next (hasRemaining p).2).2
  · have h' : (hasRemaining p).1 = false := by simpa using h
    rw [reduceInternal_false _ _ _ h']
    exact hasRemaining_false_stable p h'
termination_by elems p
decreasing_by exact hasRemaining_true_lt p h

theorem maxMinInternal_final_exhausted (comparator : T → T → Bool) (result : Option T)
    (p : Pipeline T) : Exhausted (maxMinInternal comparator result p).2 := by
  by_cases h : (hasRemaining p).1 = true
  · cases result with
    | some v =>
        rw [maxMinInternal_some _ _ _ h]
        exact maxMinInternal_final_exhausted comparator _ (next (hasRemaining p).2).2
    | none =>
        rw [maxMinInternal_none _ _ h]
        exact maxMinInternal_final_exhausted comparator _ (next (hasRemaining p).2).2
  · have h' : (hasRemaining p).1 = false := by simpa using h
    rw [maxMinInternal_false _ _ _ h']
    exact hasRemaining_false_stable p h'
termination_by elems p
decreasing_by
  · exact hasRemaining_true_lt p h
  · exact hasRemaining_true_lt p h

theorem averageLoop_final_exhausted (result : Int) (cnt : Nat) (p : Pipeline Int) :
    Exhausted (averageLoop result cnt p).2.2 := by
  by_cases h : (hasRemaining p).1 = true
  · rw [averageLoop_true _ _ _ h]
    exact averageLoop_final_exhausted _ _ (next (hasRemaining p).2).2
  · have h' : (hasRemaining p).1 = false := by simpa using h
    rw [averageLoop_false _ _ _ h']
    exact hasRemaining_false_stable p h'
termination_by elems p
decreasing_by exact hasRemaining_true_lt p h

/-- Keep the first occurrence of each value of a list, dropping every
later duplicate: the reference order for the distinct stage. -/
def dedupKeepFirst {U : Type} [DecidableEq U] : List U → List U
  | [] => []
  | a :: l => a :: dedupKeepFirst (l.filter fun y => y ≠ a)
termination_by l => l.length
decreasing_by
  exact lt_of_le_of_lt (List.length_filter_le _ l) (by simp)

theorem dedupKeepFirst_nil {U : Type} [DecidableEq U] :
    dedupKeepFirst ([] : List U) = [] := by
  rw [dedupKeepFirst]

theorem dedupKeepFirst_cons {U : Type} [DecidableEq U] (a : U) (l : List U) :
    dedupKeepFirst (a :: l) = a :: dedupKeepFirst (l.filter fun y => y ≠ a) := by
  rw [dedupKeepFirst]

/-- The seen-set recursion of the distinct stage computes exactly the
first-occurrence deduplication of the not-yet-seen elements. -/
theorem ddF_eq_dedupKeepFirst [DecidableEq T] :
    ∀ (l seen : List T),
      ddF (fun a b => decide (a = b)) seen l =
        dedupKeepFirst (l.filter fun y => decide (y ∉ seen))
  | [], seen => by simp [ddF, dedupKeepFirst_nil]
  | a :: l, seen => by
      by_cases hmem : a ∈ seen
      · have hdup : (seen.any fun y => decide (a = y)) = true :=
          (any_beq_eq_mem a seen).mpr hmem
        rw [ddF, if_pos hdup, ddF_eq_dedupKeepFirst l seen]
        have : (List.filter (fun y => decide (y ∉ seen)) (a :: l)) =
            List.filter (fun y => decide (y ∉ seen)) l := by
          rw [List.filter_cons]
          simp [hmem]
        rw [this]
      · have hdup : ¬((seen.any fun y => decide (a = y)) = true) := fun hc =>
          hmem ((any_beq_eq_mem a seen).mp hc)
        rw [ddF, if_neg hdup, ddF_eq_dedupKeepFirst l (a :: seen)]
        have hfil : (List.filter (fun y => decide (y ∉ seen)) (a :: l)) =
            a :: List.filter (fun y => decide (y ∉ seen)) l := by
          rw [List.filter_cons]
          simp [hmem]
        rw [hfil, dedupKeepFirst_cons]
        have heq : List.filter (fun y => decide (y ≠ a))
              (List.filter (fun y => decide (y ∉ seen)) l) =
            List.filter (fun y => decide (y ∉ a :: seen)) l := by
          rw [List.filter_filter]
          apply List.filter_congr
          intro y hy
          by_cases hya : y = a
          · simp [hya]
          · simp [hya, List.mem_cons]
        rw [heq]

/-- A fold whose step always returns one of its two arguments produces
either the seed or a list element. -/
theorem foldl_choice_mem {U : Type} (g : U → U → U)
    (hg : ∀ acc x, g acc x = acc ∨ g acc x = x) :
    ∀ (l : List U) (v : U), l.foldl g v = v ∨ l.foldl g v ∈ l
  | [], v => Or.inl rfl
  | a :: l, v => by
      simp only [List.foldl_cons]
      rcases foldl_choice_mem g hg l (g v a) with he | he
      · rw [he]
        rcases hg v a with hva | hva
        · exact Or.inl hva
        · exact Or.inr (by simp [hva])
      · exact Or.inr (by simp [he])

theorem foldl_keep {U : Type} : ∀ (l : List U) (a : U), l.foldl (fun acc _ => acc) a = a
  | [], a => rfl
  | _ :: l, a => foldl_keep l a

/-- A list all of whose elements fail the predicate filters to nil. -/
theorem filter_all_false {U : Type} (p : U → Bool) :
    ∀ l : List U, (∀ a ∈ l, p a = false) → l.filter p = []
  | [], _ => rfl
  | a :: l, h => by
      rw [List.filter_cons]
      simp [h a (by simp), filter_all_false p l (fun y hy => h y (by simp [hy]))]

/-! ### The claims -/

/-- C1, counterexample.  The claim says that once the cap is reached, a
further `hasRemaining` query on a Limit stage leaves the upstream stage's
state completely unchanged.  At the concrete input
`limit<0>` over `filter(always true)` over the one-element source `[0]`,
the query answers false but the upstream filter pulls the element out of
the source and caches it: the number of elements left in the source drops
from 1 to 0, so the upstream state did change. -/
theorem claimC1_counterexample :
    (hasRemaining
      (.limit 0 0 (.filter (fun _ => true) none (.source ([0] : List Int))))).1 = false ∧
    elems (hasRemaining
      (.limit 0 0 (.filter (fun _ => true) none (.source ([0] : List Int))))).2 ≠
      elems ((.limit 0 0 (.filter (fun _ => true) none (.source ([0] : List Int)))) :
        Pipeline Int) := by
  have hseek := seekF_source_split (fun _ : Int => true) [] 0 [] (by simp) rfl
  simp only [List.nil_append] at hseek
  have hfil : hasRemaining (.filter (fun _ : Int => true) none (.source [0])) =
      (true, .filter (fun _ : Int => true) (some 0) (.source [])) := by
    rw [hasRemaining_filter, hseek]
  have hlim := hasRemaining_limit 0 0 (.filter (fun _ : Int => true) none (.source [0]))
  rw [hfil] at hlim
  rw [hlim]
  refine ⟨by simp, ?_⟩
  simp [elems]

/-- C1, amended.  Once the cap is reached (`m_Count ≥ MaxSize`), a
`hasRemaining` query on the Limit stage returns false and pulls no element
itself, but — because `&&` evaluates its left operand first — it still
performs the upstream `hasRemaining` query, so the upstream state becomes
whatever that query leaves behind (for a stateful upstream such as Filter
this pulls, consumes and caches upstream elements). -/
theorem claimC1 (maxSize cnt : Nat) (prev : Pipeline Int) (h : maxSize ≤ cnt) :
    hasRemaining (.limit maxSize cnt prev) =
      (false, .limit maxSize cnt (hasRemaining prev).2) := by
  rw [hasRemaining_limit]
  have hlt : decide (cnt < maxSize) = false := by
    simp
    omega
  rw [hlt]
  simp

/-- C1, witness for the amended claim at `MaxSize = 0`, `m_Count = 0` over
an empty integer source. -/
theorem claimC1_witness :
    (0 : Nat) ≤ 0 ∧
    hasRemaining (.limit 0 0 (.source ([] : List Int))) =
      (false, .limit 0 0 (.source ([] : List Int))) := by
  refine ⟨le_rfl, ?_⟩
  rw [claimC1 0 0 (.source ([] : List Int)) le_rfl]
  rw [hasRemaining_source]

/-- C2: for every sequence `S` (here: every integer source list) and every
`N ≥ 0`, `S.limit(N).count()` equals `min(N, S.count())`. -/
theorem claimC2 (l : List Int) (N : Nat) :
    (count (.limit N 0 (.source l))).1 = min N (count (.source l)).1 := by
  rw [count_eq_collect, count_source]
  have h := collect_limit_source N l 0
  rw [h]
  simp

/-- C3: for every sequence `S` and predicate `P`,
`S.filter(P).count()` equals the number of elements of `S` satisfying `P`. -/
theorem claimC3 (l : List Int) (P : Int → Bool) :
    (count (.filter P none (.source l))).1 = l.countP P := by
  rw [count_eq_collect]
  rw [collect_filter_source P l none]
  rw [List.countP_eq_length_filter]

/-- C4: `S.distinct()` emits each distinct value (by value equality)
exactly once, in first-occurrence order, and `S.distinct().count()` is at
most `S.count()`.  The emitted list equals the first-occurrence
deduplication of the source list, has no duplicates, is a sublist of the
source (emission order is upstream order minus duplicates), contains
exactly the values of the source, and its count is bounded by the source
count. -/
theorem claimC4 (l : List Int) :
    (collect (.distinct (fun a b => decide (a = b)) [] none (.source l))).1 =
      dedupKeepFirst l ∧
    (collect (.distinct (fun a b => decide (a = b)) [] none (.source l))).1.Nodup ∧
    List.Sublist
      (collect (.distinct (fun a b => decide (a = b)) [] none (.source l))).1 l ∧
    (∀ x : Int,
      x ∈ (collect (.distinct (fun a b => decide (a = b)) [] none (.source l))).1 ↔
        x ∈ l) ∧
    (count (.distinct (fun a b => decide (a = b)) [] none (.source l))).1 ≤
      (count (.source l)).1 := by
  have hdd := collect_distinct_source (fun a b : Int => decide (a = b)) l [] none
  refine ⟨?_, ?_, ?_, ?_, ?_⟩
  · rw [hdd, ddF_eq_dedupKeepFirst l []]
    congr 1
    simp
  · rw [hdd]
    exact ddF_nodup l []
  · rw [hdd]
    exact ddF_sublist _ l []
  · intro x
    rw [hdd, ddF_mem l [] x]
    simp
  · rw [count_eq_collect, count_source, hdd]
    simpa using (ddF_sublist (fun a b : Int => decide (a = b)) l []).length_le

/-- C5: `min`/`max` scan linearly keeping a current extremum and replace
it only on a strictly positive (`max`) or strictly negative (`min`)
comparator result, so the earliest-seen element wins ties; an empty
sequence yields an empty optional; the comparator-less overloads use the
natural order's strict `>` and `<`.  Stated as: the empty cases, the
left-fold characterisations of all four entry points, the extremal bounds
of the natural-order versions, and the all-tied comparator instance where
the head element is returned. -/
theorem claimC5 :
    ((∀ comparator : Int → Int → Int,
        (maxWithComparator comparator (.source ([] : List Int))).1 = none ∧
        (minWithComparator comparator (.source ([] : List Int))).1 = none) ∧
      (maxNatural (.source ([] : List Int))).1 = none ∧
      (minNatural (.source ([] : List Int))).1 = none) ∧
    (∀ (comparator : Int → Int → Int) (a : Int) (l : List Int),
      (maxWithComparator comparator (.source (a :: l))).1 =
        some (l.foldl (fun acc x => if comparator x acc > 0 then x else acc) a) ∧
      (minWithComparator comparator (.source (a :: l))).1 =
        some (l.foldl (fun acc x => if comparator x acc < 0 then x else acc) a)) ∧
    (∀ (a : Int) (l : List Int),
      (maxNatural (.source (a :: l))).1 =
        some (l.foldl (fun acc x => if acc < x then x else acc) a) ∧
      (minNatural (.source (a :: l))).1 =
        some (l.foldl (fun acc x => if x < acc then x else acc) a)) ∧
    (∀ (a : Int) (l : List Int), ∃ m,
      (maxNatural (.source (a :: l))).1 = some m ∧ m ∈ a :: l ∧
        ∀ x ∈ a :: l, x ≤ m) ∧
    (∀ (a : Int) (l : List Int), ∃ m,
      (minNatural (.source (a :: l))).1 = some m ∧ m ∈ a :: l ∧
        ∀ x ∈ a :: l, m ≤ x) ∧
    (∀ (a : Int) (l : List Int),
      (maxWithComparator (fun _ _ => 0) (.source (a :: l))).1 = some a ∧
      (minWithComparator (fun _ _ => 0) (.source (a :: l))).1 = some a) := by
  have hfold : ∀ (cmpb : Int → Int → Bool) (a : Int) (l : List Int),
      (maxMinInternal cmpb none (.source (a :: l))).1 =
        some (l.foldl (fun acc x => if cmpb x acc then x else acc) a) := by
    intro cmpb a l
    rw [maxMinInternal_source_none_cons]
  refine ⟨⟨?_, ?_, ?_⟩, ?_, ?_, ?_, ?_, ?_⟩
  · intro comparator
    unfold maxWithComparator minWithComparator
    rw [maxMinInternal_source_none_nil, maxMinInternal_source_none_nil]
    exact ⟨rfl, rfl⟩
  · unfold maxNatural
    rw [maxMinInternal_source_none_nil]
  · unfold minNatural
    rw [maxMinInternal_source_none_nil]
  · intro comparator a l
    unfold maxWithComparator minWithComparator
    rw [hfold, hfold]
    constructor
    · congr 1
      apply List.foldl_ext
      intro acc x hx
      by_cases h : comparator x acc > 0 <;> simp [h]
    · congr 1
      apply List.foldl_ext
      intro acc x hx
      by_cases h : comparator x acc < 0 <;> simp [h]
  · intro a l
    unfold maxNatural minNatural
    rw [hfold, hfold]
    constructor
    · congr 1
      apply List.foldl_ext
      intro acc x hx
      by_cases h : acc < x <;> simp [h]
    · congr 1
      apply List.foldl_ext
      intro acc x hx
      by_cases h : x < acc <;> simp [h]
  · intro a l
    refine ⟨l.foldl (fun acc x => if acc < x then x else acc) a, ?_, ?_, ?_⟩
    · unfold maxNatural
      rw [hfold]
      congr 1
      apply List.foldl_ext
      intro acc x hx
      by_cases h : acc < x <;> simp [h]
    · rcases foldl_choice_mem (fun acc x => if acc < x then x else acc)
        (fun acc x => by by_cases h : acc < x <;> simp [h]) l a with he | he
      · rw [he]
        exact List.mem_cons_self a l
      · exact List.mem_cons_of_mem a he
    · intro x hx
      rcases List.mem_cons.mp hx with hxa | hx
      · rw [hxa]
        exact (extremumFold_max l a).1
      · exact (extremumFold_max l a).2 x hx
  · intro a l
    refine ⟨l.foldl (fun acc x => if x < acc then x else acc) a, ?_, ?_, ?_⟩
    · unfold minNatural
      rw [hfold]
      congr 1
      apply List.foldl_ext
      intro acc x hx
      by_cases h : x < acc <;> simp [h]
    · rcases foldl_choice_mem (fun acc x => if x < acc then x else acc)
        (fun acc x => by by_cases h : x < acc <;> simp [h]) l a with he | he
      · rw [he]
        exact List.mem_cons_self a l
      · exact List.mem_cons_of_mem a he
    · intro x hx
      rcases List.mem_cons.mp hx with hxa | hx
      · rw [hxa]
        exact (extremumFold_min l a).1
      · exact (extremumFold_min l a).2 x hx
  · intro a l
    unfold maxWithComparator minWithComparator
    simp only [maxMinInternal_source_none_cons]
    constructor <;> simp [foldl_keep]

/-- C5, witness: concrete evaluations through the fold characterisations
(natural-order max and min over `[3,1,4,1,5,9,2,6]`, and the all-tied
comparator keeping the head). -/
theorem claimC5_witness :
    (maxNatural (.source ([3, 1, 4, 1, 5, 9, 2, 6] : List Int))).1 = some 9 ∧
    (minNatural (.source ([3, 1, 4, 1, 5, 9, 2, 6] : List Int))).1 = some 1 ∧
    (maxWithComparator (fun _ _ => 0) (.source ([7, 8] : List Int))).1 = some 7 := by
  refine ⟨?_, ?_, ?_⟩
  · rw [(claimC5.2.2.1 3 [1, 4, 1, 5, 9, 2, 6]).1]
    decide
  · rw [(claimC5.2.2.1 3 [1, 4, 1, 5, 9, 2, 6]).2]
    decide
  · exact (claimC5.2.2.2.2.2 7 [8]).1

/-- C6: `reduce` is a left fold in encounter order.  Without an identity,
an empty source yields no value and a one-element source yields that
element unreduced; with an identity, the fold starts from the identity and
always yields a value; `reduce` with identity 0 and `+` over `[1,2,3,4,5]`
yields 15. -/
theorem claimC6 :
    (∀ accumulator : Int → Int → Int,
      (reduce accumulator (.source ([] : List Int))).1 = none) ∧
    (∀ (accumulator : Int → Int → Int) (a : Int),
      (reduce accumulator (.source [a])).1 = some a) ∧
    (∀ (accumulator : Int → Int → Int) (a : Int) (l : List Int),
      (reduce accumulator (.source (a :: l))).1 = some (l.foldl accumulator a)) ∧
    (∀ (accumulator : Int → Int → Int) (identity : Int) (l : List Int),
      (reduceWithIdentity identity accumulator (.source l)).1 =
        some (l.foldl accumulator identity)) ∧
    (reduceWithIdentity 0 (fun a b => a + b) (.source ([1, 2, 3, 4, 5] : List Int))).1 =
      some 15 := by
  have hid : ∀ (accumulator : Int → Int → Int) (identity : Int) (l : List Int),
      (reduceWithIdentity identity accumulator (.source l)).1 =
        some (l.foldl accumulator identity) := by
    intro accumulator identity l
    unfold reduceWithIdentity
    rw [reduceInternal_source_some]
  refine ⟨?_, ?_, ?_, hid, ?_⟩
  · intro accumulator
    unfold reduce
    rw [reduceInternal_source_none_nil]
  · intro accumulator a
    unfold reduce
    rw [reduceInternal_source_none_cons]
    rfl
  · intro accumulator a l
    unfold reduce
    rw [reduceInternal_source_none_cons]
  · rw [hid]
    decide

/-- C7: the match terminals short-circuit at the first deciding element
(the final source state still holds the untouched tail `l₂`, so the
predicate was never applied past the deciding element), and the empty
sequence gives true/false/true for all/any/none. -/
theorem claimC7 :
    (∀ (condition : Int → Bool) (l₁ : List Int) (x : Int) (l₂ : List Int),
      (∀ y ∈ l₁, condition y = true) → condition x = false →
      allMatch condition (.source (l₁ ++ x :: l₂)) = (false, .source l₂)) ∧
    (∀ (condition : Int → Bool) (l₁ : List Int) (x : Int) (l₂ : List Int),
      (∀ y ∈ l₁, condition y = false) → condition x = true →
      anyMatch condition (.source (l₁ ++ x :: l₂)) = (true, .source l₂)) ∧
    (∀ (condition : Int → Bool) (l₁ : List Int) (x : Int) (l₂ : List Int),
      (∀ y ∈ l₁, condition y = false) → condition x = true →
      noneMatch condition (.source (l₁ ++ x :: l₂)) = (false, .source l₂)) ∧
    (∀ condition : Int → Bool,
      (allMatch condition (.source ([] : List Int))).1 = true ∧
      (anyMatch condition (.source ([] : List Int))).1 = false ∧
      (noneMatch condition (.source ([] : List Int))).1 = true) := by
  refine ⟨fun condition => allMatch_source_split condition,
    fun condition => anyMatch_source_split condition,
    fun condition => noneMatch_source_split condition, ?_⟩
  intro condition
  rw [allMatch_false _ _ hasRemaining_source_nil,
    anyMatch_false _ _ hasRemaining_source_nil,
    noneMatch_false _ _ hasRemaining_source_nil]
  exact ⟨rfl, rfl, rfl⟩

/-- C7, witness: `allMatch (0 < ·)` over `[1, -2, 5]` stops at `-2` with
the `5` unconsumed, and `anyMatch (· < 0)` over the same source stops
there too. -/
theorem claimC7_witness :
    ((∀ y ∈ ([1] : List Int), (fun z : Int => decide (0 < z)) y = true) ∧
      (fun z : Int => decide (0 < z)) (-2) = false ∧
      allMatch (fun z : Int => decide (0 < z))
        (.source (([1] : List Int) ++ (-2) :: [5])) = (false, .source [5])) ∧
    ((∀ y ∈ ([1] : List Int), (fun z : Int => decide (z < 0)) y = false) ∧
      (fun z : Int => decide (z < 0)) (-2) = true ∧
      anyMatch (fun z : Int => decide (z < 0))
        (.source (([1] : List Int) ++ (-2) :: [5])) = (true, .source [5])) := by
  refine ⟨⟨by decide, by decide, ?_⟩, ⟨by decide, by decide, ?_⟩⟩
  · exact claimC7.1 (fun z : Int => decide (0 < z)) [1] (-2) [5] (by decide) (by decide)
  · exact claimC7.2.1 (fun z : Int => decide (z < 0)) [1] (-2) [5] (by decide) (by decide)

/-- C8, counterexample.  The claim says `average(identity)` returns the
arithmetic mean of the drained elements for every identity value; but the
accumulator is seeded with the identity, so `average(3)` over `[3]`
returns `(3 + 3) / 1 = 6`, not the mean `3`. -/
theorem claimC8_counterexample :
    (average 3 (.source ([3] : List Int))).1 = 6 ∧ (6 : Int) ≠ 3 := by
  constructor
  · rw [average_source]
    decide
  · decide

/-- C8, amended.  `average(identity)` seeds the accumulator with the
identity value, so on a non-empty sequence it returns
`(identity + sum) / count` where the division is the C++ one: the `int`
accumulator is converted to `size_t`, divided unsigned, and the quotient
narrowed back to `int` (so for the default identity 0 and a non-negative
in-`int`-range sum it is exactly the floor of the arithmetic mean, while
a negative accumulated sum goes through the unsigned reinterpretation —
`average(0)` over `[-3, 0]` yields `-2`); on an empty sequence it returns
the identity value rather than an error; `average` over `[2,4,6]` yields 4
and over `[]` with default identity 0 yields 0. -/
theorem claimC8 (identity : Int) (l : List Int) :
    average identity (.source l) =
      (if l.length = 0 then identity
        else toIntR (toSizeT (identity + l.sum) / l.length),
        .source []) ∧
    (∀ m : List Int, m ≠ [] → 0 ≤ m.sum → m.sum < 2 ^ 31 →
      (average 0 (.source m)).1 = Int.tdiv m.sum m.length) ∧
    (average 0 (.source ([-3, 0] : List Int))).1 = -2 ∧
    (average 0 (.source ([2, 4, 6] : List Int))).1 = 4 ∧
    (average 0 (.source ([] : List Int))).1 = 0 := by
  refine ⟨average_source identity l, ?_, ?_, ?_, ?_⟩
  · intro m hm h0 hlt
    rw [average_source]
    have hne : m.length ≠ 0 := by simpa using hm
    simp only [if_neg hne, zero_add]
    have h1 : toSizeT m.sum = m.sum.toNat := by
      unfold toSizeT
      rw [Int.emod_eq_of_lt h0 (by omega)]
    have h2 : m.sum.toNat < 2 ^ 31 := by omega
    have h3 : m.sum.toNat / m.length < 2 ^ 31 :=
      lt_of_le_of_lt (Nat.div_le_self _ _) h2
    rw [h1]
    unfold toIntR
    rw [Nat.mod_eq_of_lt (by omega), if_pos h3]
    conv_rhs => rw [← Int.toNat_of_nonneg h0]
    rfl
  · rw [average_source]
    decide
  · rw [average_source]
    decide
  · rw [average_source]
    decide

/-- C8, witness for the amended claim over the non-empty source `[5, 7]`
with its non-negative, in-range sum. -/
theorem claimC8_witness :
    (([5, 7] : List Int) ≠ [] ∧ 0 ≤ ([5, 7] : List Int).sum ∧
      ([5, 7] : List Int).sum < 2 ^ 31) ∧
    (average 0 (.source ([5, 7] : List Int))).1 = Int.tdiv 12 2 := by
  refine ⟨⟨by decide, by decide, by decide⟩, ?_⟩
  have h := (claimC8 0 []).2.1 [5, 7] (by decide) (by decide) (by decide)
  rw [h]
  decide

/-- C9: exhaustion is permanent.  Every fully-draining terminal leaves the
chain in an exhausted state (for every combination of stage kinds, since
`p` ranges over all chains), and on an exhausted chain every terminal
operation yields the empty/zero result: count 0, empty collect, no-value
optionals, vacuous matches, and `average` returning its identity. -/
theorem claimC9 :
    (∀ p : Pipeline Int, Exhausted (count p).2) ∧
    (∀ p : Pipeline Int, Exhausted (collect p).2) ∧
    (∀ (p : Pipeline Int) (result : Option Int) (accumulator : Int → Int → Int),
      Exhausted (reduceInternal result accumulator p).2) ∧
    (∀ (p : Pipeline Int) (comparator : Int → Int → Bool) (result : Option Int),
      Exhausted (maxMinInternal comparator result p).2) ∧
    (∀ (p : Pipeline Int) (result : Int) (cnt : Nat),
      Exhausted (averageLoop result cnt p).2.2) ∧
    (∀ p : Pipeline Int, Exhausted p →
      (count p).1 = 0 ∧ (collect p).1 = [] ∧ (findFirst p).1 = none ∧
      (∀ condition : Int → Bool,
        (allMatch condition p).1 = true ∧ (anyMatch condition p).1 = false ∧
        (noneMatch condition p).1 = true) ∧
      (∀ comparator : Int → Int → Int,
        (maxWithComparator comparator p).1 = none ∧
        (minWithComparator comparator p).1 = none) ∧
      (maxNatural p).1 = none ∧ (minNatural p).1 = none ∧
      (∀ accumulator : Int → Int → Int, (reduce accumulator p).1 = none) ∧
      (∀ identity : Int, (average identity p).1 = identity)) := by
  refine ⟨count_final_exhausted, collect_final_exhausted,
    fun p result accumulator => reduceInternal_final_exhausted result accumulator p,
    fun p comparator result => maxMinInternal_final_exhausted comparator result p,
    fun p result cnt => averageLoop_final_exhausted result cnt p, ?_⟩
  intro p hp
  have h : (hasRemaining p).1 = false := hp
  refine ⟨?_, ?_, ?_, ?_, ?_, ?_, ?_, ?_, ?_⟩
  · rw [count_false p h]
  · rw [collect_false p h]
  · rw [findFirst_false p h]
  · intro condition
    rw [allMatch_false _ _ h, anyMatch_false _ _ h, noneMatch_false _ _ h]
    exact ⟨rfl, rfl, rfl⟩
  · intro comparator
    unfold maxWithComparator minWithComparator
    rw [maxMinInternal_false _ _ _ h, maxMinInternal_false _ _ _ h]
    exact ⟨rfl, rfl⟩
  · unfold maxNatural
    rw [maxMinInternal_false _ _ _ h]
  · unfold minNatural
    rw [maxMinInternal_false _ _ _ h]
  · intro accumulator
    unfold reduce
    rw [reduceInternal_false _ _ _ h]
  · intro identity
    unfold average
    rw [averageLoop_false _ _ _ h]
    simp

/-- C9, witness: the empty integer source is exhausted, and a second
terminal on it counts zero and finds nothing. -/
theorem claimC9_witness :
    Exhausted (.source ([] : List Int)) ∧
    (count (.source ([] : List Int))).1 = 0 ∧
    (findFirst (.source ([] : List Int))).1 = none := by
  have hex : Exhausted (.source ([] : List Int)) := hasRemaining_source_nil
  have h := claimC9.2.2.2.2.2 (.source ([] : List Int)) hex
  exact ⟨hex, h.1, h.2.2.1⟩

/-- C10: the filter stage's `hasRemaining` is not idempotent.  It clears
the lookahead slot on entry (the answer is independent of the slot's
previous content) and pulls fresh upstream elements on every invocation:
after a first `hasRemaining` caches the matching element `x`, draining the
resulting state yields only the matches of the tail — `x` has been
advanced past and is permanently discarded. -/
theorem claimC10 :
    (∀ (condition : Int → Bool) (look : Option Int) (prev : Pipeline Int),
      hasRemaining (.filter condition look prev) =
        hasRemaining (.filter condition none prev)) ∧
    (∀ (condition : Int → Bool) (l₁ : List Int) (x : Int) (l₂ : List Int),
      (∀ y ∈ l₁, condition y = false) → condition x = true →
      hasRemaining (.filter condition none (.source (l₁ ++ x :: l₂))) =
        (true, .filter condition (some x) (.source l₂)) ∧
      (collect (.filter condition none (.source (l₁ ++ x :: l₂)))).1 =
        x :: l₂.filter condition ∧
      (collect ((hasRemaining
        (.filter condition none (.source (l₁ ++ x :: l₂)))).2)).1 =
        l₂.filter condition) := by
  constructor
  · intro condition look prev
    rw [hasRemaining_filter, hasRemaining_filter]
  · intro condition l₁ x l₂ h₁ hx
    have hseek := seekF_source_split condition l₁ x l₂ h₁ hx
    have hhr : hasRemaining (.filter condition none (.source (l₁ ++ x :: l₂))) =
        (true, .filter condition (some x) (.source l₂)) := by
      rw [hasRemaining_filter, hseek]
    refine ⟨hhr, ?_, ?_⟩
    · rw [collect_filter_source condition (l₁ ++ x :: l₂) none]
      rw [List.filter_append]
      have h1 : l₁.filter condition = [] := filter_all_false condition l₁ h₁
      rw [h1, List.filter_cons, if_pos hx]
      rfl
    · rw [hhr]
      exact collect_filter_source condition l₂ (some x)

/-- C10, witness: filtering the evens of `[1, 2, 3, 4]`, the first
`hasRemaining` caches the `2`; a drain from the returned state yields only
`[4]` — the cached `2` is lost. -/
theorem claimC10_witness :
    ((∀ y ∈ ([1] : List Int), (fun z : Int => decide (z % 2 = 0)) y = false) ∧
      (fun z : Int => decide (z % 2 = 0)) 2 = true) ∧
    (collect (.filter (fun z : Int => decide (z % 2 = 0)) none
      (.source (([1] : List Int) ++ 2 :: [3, 4])))).1 = [2, 4] ∧
    (collect ((hasRemaining (.filter (fun z : Int => decide (z % 2 = 0)) none
      (.source (([1] : List Int) ++ 2 :: [3, 4])))).2)).1 = [4] := by
  have h := claimC10.2 (fun z : Int => decide (z % 2 = 0)) [1] 2 [3, 4]
    (by decide) (by decide)
  refine ⟨⟨by decide, by decide⟩, ?_, ?_⟩
  · rw [h.2.1]
    decide
  · rw [h.2.2]
    decide

/-- C2, witness: `limit<2>` over `[1,2,3]` counts 2. -/
theorem claimC2_witness :
    (count (.limit 2 0 (.source ([1, 2, 3] : List Int)))).1 = 2 := by
  rw [claimC2 [1, 2, 3] 2, count_source]
  decide

/-- C3, witness: filtering the evens of `[1,2,3,4]` counts 2. -/
theorem claimC3_witness :
    (count (.filter (fun z : Int => decide (z % 2 = 0)) none
      (.source ([1, 2, 3, 4] : List Int)))).1 = 2 := by
  rw [claimC3 [1, 2, 3, 4] (fun z : Int => decide (z % 2 = 0))]
  decide

/-- C4, witness: `distinct` over `[1,2,1,3]` emits `[1,2,3]`. -/
theorem claimC4_witness :
    (collect (.distinct (fun a b => decide (a = b)) [] none
      (.source ([1, 2, 1, 3] : List Int)))).1 = [1, 2, 3] := by
  rw [(claimC4 [1, 2, 1, 3]).1]
  rw [dedupKeepFirst_cons]
  norm_num
  rw [dedupKeepFirst_cons]
  norm_num
  rw [dedupKeepFirst_cons]
  norm_num
  rw [dedupKeepFirst_nil]

/-- C6, witness: `reduce` without identity over the singleton `[7]` yields
`7` itself. -/
theorem claimC6_witness :
    (reduce (fun a b => a + b) (.source ([7] : List Int))).1 = some 7 :=
  claimC6.2.1 (fun a b => a + b) 7

end CppStreams
